import Mathlib

/-!
Verification development for the tolerant extraction pipeline of
`facture_v1.py` (Flask re-order application).  The Python functions
`clean_markdown_json`, `extract_first_json_candidate`,
`remove_trailing_commas`, `try_json_loads`, `try_ast_literal_eval`,
`tolerant_parse_json_from_text`, `normalize_number`,
`parse_llm_response` and the field-normalization loop of
`extract_order_data` are shallowly embedded over `List Char`.

Modelling conventions:
* Python strings are `List Char`; machine floats are embedded as `ℚ`
  (every numeric literal the pipeline parses is a finite decimal, and the
  pipeline performs no arithmetic on parsed numbers other than integer
  truncation, so the rational embedding is exact on all inputs the claims
  touch; `inf`/`nan` and digit-group underscores accepted by Python's
  `float` are outside the rational model and are mapped to parse failure,
  no claim involves them).
* Parsed JSON is the inductive `Json`; Python `int` and `float` results
  are kept apart (`jint` vs `jnum`) because `json.loads` and the mapper
  distinguish them.
* Exceptions are `Except PErr`; the distinct `raise` sites of the source
  become distinct `PErr` constructors.
-/

namespace Facture

abbrev Chars := List Char

/-- Whitespace accepted between tokens by Python's strict `json.loads`
(JSON spec whitespace: space, tab, newline, carriage return). -/
def jsonWsChar (c : Char) : Bool :=
  c == ' ' || c == '\t' || c == '\n' || c == '\r'

/-- Whitespace stripped by Python's `str.strip()` and matched by the
regex class `\s` on `str` patterns.  Modelled for the ASCII range plus
the no-break space, which are the characters the pipeline can meet. -/
def pyWsChar (c : Char) : Bool :=
  jsonWsChar c || c == '\x0b' || c == '\x0c' || c == Char.ofNat 0xA0

theorem pyWsChar_of_jsonWsChar {c : Char} (h : jsonWsChar c = true) :
    pyWsChar c = true := by
  simp [pyWsChar, h]

/-- Drop trailing characters satisfying `p` (right-hand side of a strip). -/
def dropTrailing (p : Char → Bool) (l : Chars) : Chars :=
  (l.reverse.dropWhile p).reverse

/-- Python `str.strip()`. -/
def pyStrip (l : Chars) : Chars :=
  dropTrailing pyWsChar (l.dropWhile pyWsChar)

/-- Both-ends strip with JSON whitespace; `json.loads` accepts exactly a
JSON value surrounded by this whitespace. -/
def jsonTrim (l : Chars) : Chars :=
  dropTrailing jsonWsChar (l.dropWhile jsonWsChar)

def backtick : Char := Char.ofNat 96

def nbsp : Char := Char.ofNat 0xA0

/-- JSON values as produced by Python's `json.loads`.  `jint` models a
Python `int` result (number literal without fraction/exponent), `jnum` a
Python `float`.  Objects are Python dicts: keys are unique, kept in first
insertion order (see `pyDictInsert`). -/
inductive Json where
  | null : Json
  | bool (b : Bool) : Json
  | jint (n : ℤ) : Json
  | jnum (q : ℚ) : Json
  | str (s : Chars) : Json
  | arr (xs : List Json) : Json
  | obj (kvs : List (Chars × Json)) : Json

/-- Python dict lookup (`d[k]` / membership); keys are unique by
construction so the first match is the only one. -/
def pyLookup (kvs : List (Chars × Json)) (k : Chars) : Option Json :=
  match kvs with
  | [] => none
  | (k', v) :: rest => if k' = k then some v else pyLookup rest k

/-- Python dict assignment `d[k] = v`: overwrite in place if the key
exists (keeping its position), otherwise append at the end.  This is also
how `json.loads` resolves duplicate object keys (last value wins, first
position kept). -/
def pyDictInsert (kvs : List (Chars × Json)) (k : Chars) (v : Json) :
    List (Chars × Json) :=
  match kvs with
  | [] => [(k, v)]
  | (k', v') :: rest =>
      if k' = k then (k', v) :: rest
      else (k', v') :: pyDictInsert rest k v

/-- Digit value of an ASCII digit. -/
def digitVal (c : Char) : ℕ := c.toNat - 48

/-- Value of a string of ASCII digits read in base 10. -/
def decNat (ds : Chars) : ℕ :=
  ds.foldl (fun a c => a * 10 + digitVal c) 0

/-- Characters that can occur in a JSON number token; `json.loads` reads
the maximal run of these at a number start and then validates it. -/
def numTokChar (c : Char) : Bool :=
  c.isDigit || c == '-' || c == '+' || c == '.' || c == 'e' || c == 'E'

/-- JSON integer-part grammar: `0` or a nonzero digit followed by digits
(leading zeros are rejected by strict `json.loads`). -/
def jsonIntPartOk (l : Chars) : Bool :=
  match l with
  | [] => false
  | ['0'] => true
  | c :: rest => c.isDigit && c != '0' && rest.all Char.isDigit

/-- Signed rational from integer digits, fraction digits and exponent.
Built with `mkRat` on integer arithmetic so that it evaluates by kernel
reduction (the value is `±(ip.fp) · 10^(±ed)`). -/
def jsonNumVal (neg : Bool) (ip fp : Chars) (eneg : Bool) (ed : Chars) : ℚ :=
  let m : ℤ := ((decNat ip * 10 ^ fp.length + decNat fp : ℕ) : ℤ)
  let sm : ℤ := if neg then -m else m
  let e := decNat ed
  if eneg then mkRat sm (10 ^ (fp.length + e))
  else mkRat (sm * 10 ^ e) (10 ^ fp.length)

/-- Validate a maximal number token against the strict JSON grammar
`-?(0|[1-9][0-9]*)(\.[0-9]+)?([eE][+-]?[0-9]+)?` and compute its value.
A token with neither fraction nor exponent is a Python `int`. -/
def parseNumFromTok (tok : Chars) : Option Json :=
  let (neg, t1) := match tok with
    | '-' :: r => (true, r)
    | _ => (false, tok)
  let ip := t1.takeWhile Char.isDigit
  let r1 := t1.drop ip.length
  if jsonIntPartOk ip then
    match r1 with
    | [] => some (.jint (if neg then -(decNat ip : ℤ) else (decNat ip : ℤ)))
    | '.' :: r2 =>
        let fp := r2.takeWhile Char.isDigit
        let r3 := r2.drop fp.length
        if fp = [] then none
        else
          match r3 with
          | [] => some (.jnum (jsonNumVal neg ip fp false []))
          | e :: r4 =>
              if e = 'e' ∨ e = 'E' then
                let (eneg, r5) := match r4 with
                  | '-' :: r6 => (true, r6)
                  | '+' :: r6 => (false, r6)
                  | _ => (false, r4)
                let ed := r5.takeWhile Char.isDigit
                if ed ≠ [] ∧ r5.drop ed.length = [] then
                  some (.jnum (jsonNumVal neg ip fp eneg ed))
                else none
              else none
    | e :: r4 =>
        if e = 'e' ∨ e = 'E' then
          let (eneg, r5) := match r4 with
            | '-' :: r6 => (true, r6)
            | '+' :: r6 => (false, r6)
            | _ => (false, r4)
          let ed := r5.takeWhile Char.isDigit
          if ed ≠ [] ∧ r5.drop ed.length = [] then
            some (.jnum (jsonNumVal neg ip [] eneg ed))
          else none
        else none
  else none

/-- Number scanning of `json.loads`: take the maximal token of number
characters and validate it; the remainder starts at the first
non-number character, exactly where Python's `NUMBER_RE` match ends on
every accepted input. -/
def parseNumber (l : Chars) : Option (Json × Chars) :=
  let tok := l.takeWhile numTokChar
  match parseNumFromTok tok with
  | some j => some (j, l.dropWhile numTokChar)
  | none => none

def hexVal? (c : Char) : Option ℕ :=
  if c.isDigit then some (c.toNat - 48)
  else if 'a' ≤ c ∧ c ≤ 'f' then some (c.toNat - 87)
  else if 'A' ≤ c ∧ c ≤ 'F' then some (c.toNat - 55)
  else none

/-- String body scanner of strict `json.loads`, entered after the opening
quote; returns the decoded content and the remainder after the closing
quote.  Strict mode rejects raw control characters and unknown escapes.
`\uXXXX` escapes in the surrogate range (Python decodes pairs and keeps
lone surrogates) are outside the scalar-value `Char` model and are mapped
to failure; no claim involves them. -/
def parseStringRest : ℕ → Chars → Option (Chars × Chars)
  | 0, _ => none
  | _ + 1, [] => none
  | fuel + 1, c :: rest =>
      if c = '"' then some ([], rest)
      else if c = '\\' then
        match rest with
        | [] => none
        | e :: r2 =>
            let simpleEsc : Option Char :=
              if e = '"' then some '"'
              else if e = '\\' then some '\\'
              else if e = '/' then some '/'
              else if e = 'b' then some '\x08'
              else if e = 'f' then some '\x0c'
              else if e = 'n' then some '\n'
              else if e = 'r' then some '\r'
              else if e = 't' then some '\t'
              else none
            match simpleEsc with
            | some d =>
                match parseStringRest fuel r2 with
                | some (s, r) => some (d :: s, r)
                | none => none
            | none =>
                if e = 'u' then
                  match r2 with
                  | h1 :: h2 :: h3 :: h4 :: r6 =>
                      match hexVal? h1, hexVal? h2, hexVal? h3, hexVal? h4 with
                      | some a, some b, some c3, some d =>
                          let n := ((a * 16 + b) * 16 + c3) * 16 + d
                          if 0xD800 ≤ n ∧ n < 0xE000 then none
                          else
                            match parseStringRest fuel r6 with
                            | some (s, r) => some (Char.ofNat n :: s, r)
                            | none => none
                      | _, _, _, _ => none
                  | _ => none
                else none
      else if c.toNat < 0x20 then none
      else
        match parseStringRest fuel rest with
        | some (s, r) => some (c :: s, r)
        | none => none

mutual

/-- Value scanner of strict `json.loads`; the caller has already skipped
leading whitespace. -/
def parseValue : ℕ → Chars → Option (Json × Chars)
  | 0, _ => none
  | _ + 1, [] => none
  | fuel + 1, c :: rest =>
      if c = '{' then parseMembersFirst fuel rest
      else if c = '[' then parseElemsFirst fuel rest
      else if c = '"' then
        match parseStringRest fuel rest with
        | some (s, r) => some (.str s, r)
        | none => none
      else if c.isDigit || c = '-' then parseNumber (c :: rest)
      else
        match c :: rest with
        | 'n' :: 'u' :: 'l' :: 'l' :: r => some (.null, r)
        | 't' :: 'r' :: 'u' :: 'e' :: r => some (.bool true, r)
        | 'f' :: 'a' :: 'l' :: 's' :: 'e' :: r => some (.bool false, r)
        | _ => none

/-- Array scanner, entered after `[`. -/
def parseElemsFirst : ℕ → Chars → Option (Json × Chars)
  | 0, _ => none
  | fuel + 1, l =>
      match l.dropWhile jsonWsChar with
      | ']' :: r => some (.arr [], r)
      | l1 => parseElemsLoop fuel [] l1

/-- Array element loop: value, then `,` and the next element or `]`. -/
def parseElemsLoop : ℕ → List Json → Chars → Option (Json × Chars)
  | 0, _, _ => none
  | fuel + 1, acc, l =>
      match parseValue fuel (l.dropWhile jsonWsChar) with
      | none => none
      | some (v, r) =>
          match r.dropWhile jsonWsChar with
          | ',' :: r2 => parseElemsLoop fuel (acc ++ [v]) r2
          | ']' :: r2 => some (.arr (acc ++ [v]), r2)
          | _ => none

/-- Object scanner, entered after `{`. -/
def parseMembersFirst : ℕ → Chars → Option (Json × Chars)
  | 0, _ => none
  | fuel + 1, l =>
      match l.dropWhile jsonWsChar with
      | '}' :: r => some (.obj [], r)
      | l1 => parseMembersLoop fuel [] l1

/-- Object member loop: string key, `:`, value, then `,` or `}`. -/
def parseMembersLoop : ℕ → List (Chars × Json) → Chars → Option (Json × Chars)
  | 0, _, _ => none
  | fuel + 1, acc, l =>
      match l.dropWhile jsonWsChar with
      | '"' :: r =>
          match parseStringRest fuel r with
          | none => none
          | some (k, r2) =>
              match r2.dropWhile jsonWsChar with
              | ':' :: r3 =>
                  match parseValue fuel (r3.dropWhile jsonWsChar) with
                  | none => none
                  | some (v, r4) =>
                      match r4.dropWhile jsonWsChar with
                      | ',' :: r5 => parseMembersLoop fuel (pyDictInsert acc k v) r5
                      | '}' :: r5 => some (.obj (pyDictInsert acc k v), r5)
                      | _ => none
              | _ => none
      | _ => none

end

/-- Python `json.loads` (the model of `try_json_loads`): strip the JSON
whitespace at both ends, scan exactly one value, succeed only if nothing
is left.  The fuel bound is generous (Python instead has a recursion
limit; no realistic input ever exhausts either). -/
def pyJsonLoads (l : Chars) : Option Json :=
  let m := jsonTrim l
  match parseValue (m.length * 4 + 16) m with
  | some (v, []) => some v
  | _ => none

/-- The apostrophe character. -/
def apos : Char := Char.ofNat 39

/-- First substitution of `clean_markdown_json` (line 56):
`re.sub(r'^```(?:json)?\s*', '', text, flags=re.IGNORECASE)` on an
already-stripped text.  The anchored pattern removes an opening fence,
an optional case-insensitive `json` tag, and the following whitespace. -/
def subFenceOpen (l : Chars) : Chars :=
  if l.take 3 = [backtick, backtick, backtick] then
    let l1 := l.drop 3
    let l2 :=
      if (l1.take 4).map Char.toLower = ['j', 's', 'o', 'n'] then l1.drop 4 else l1
    l2.dropWhile pyWsChar
  else l

/-- Second substitution of `clean_markdown_json` (line 57):
`re.sub(r'\s*```$', '', text)` on an already-stripped text (so `$` is
plain end-of-string).  The leftmost match removes the final fence and
the maximal whitespace run immediately before it. -/
def subFenceClose (l : Chars) : Chars :=
  if l.reverse.take 3 = [backtick, backtick, backtick] then
    dropTrailing pyWsChar ((l.reverse.drop 3).reverse)
  else l

/-- `clean_markdown_json` (lines 54-58): strip, remove an opening
code fence, strip, remove a closing code fence, strip. -/
def clean_markdown_json (l : Chars) : Chars :=
  pyStrip (subFenceClose (pyStrip (subFenceOpen (pyStrip l))))

/-- Prefix of `l` up to and including the last occurrence of `ch`. -/
def upToLast (ch : Char) (l : Chars) : Chars :=
  (l.reverse.dropWhile (fun c => c ≠ ch)).reverse

/-- Search of the regex `(\{.*\}|\[.*\])` with `re.DOTALL` (line 63):
at the leftmost position where an alternative can match, the greedy `.*`
extends to the last matching closer in the rest of the text. -/
def scanCandidate : Chars → Option Chars
  | [] => none
  | c :: rest =>
      if c = '{' ∧ rest.any (fun d => d = '}') then some (c :: upToLast '}' rest)
      else if c = '[' ∧ rest.any (fun d => d = ']') then some (c :: upToLast ']' rest)
      else scanCandidate rest

/-- `extract_first_json_candidate` (lines 60-67): clean the markdown,
search for the first JSON-shaped block, strip it; `none` models the
`ValueError("No JSON-like block found in text.")` raise. -/
def extract_first_json_candidate (l : Chars) : Option Chars :=
  (scanCandidate (clean_markdown_json l)).map pyStrip

/-- Fuel-driven body of `remove_trailing_commas`. -/
def remove_trailing_commas_fuel : ℕ → Chars → Chars
  | 0, l => l
  | _ + 1, [] => []
  | fuel + 1, c :: rest =>
      if c = ',' then
        match rest.dropWhile pyWsChar with
        | '}' :: tail => '}' :: remove_trailing_commas_fuel fuel tail
        | ']' :: tail => ']' :: remove_trailing_commas_fuel fuel tail
        | _ => c :: remove_trailing_commas_fuel fuel rest
      else c :: remove_trailing_commas_fuel fuel rest

/-- `remove_trailing_commas` (lines 69-71):
`re.sub(r',\s*(\}|])', r'\1', s)` — every comma followed by optional
whitespace and a closer is replaced by the bare closer; scanning resumes
after each replacement.  The substitution is blind to string literals. -/
def remove_trailing_commas (l : Chars) : Chars :=
  remove_trailing_commas_fuel l.length l

/-- `re.sub(r"(?<!\\)\'", '"', s)` used by the fourth candidate strategy
(line 108): replace every single quote not preceded by a backslash. -/
def singleToDoubleQuotes (l : Chars) : Chars :=
  let rec go : Option Char → Chars → Chars
    | _, [] => []
    | prev, c :: rest =>
        (if c = apos ∧ prev ≠ some '\\' then '"' else c) :: go (some c) rest
  go none l

/-- Word characters of the regex `\b` boundary. -/
def isWordChar (c : Char) : Bool := c.isAlphanum || c = '_'

/-- Fuel-driven body of the case-insensitive whole-word replacement
`re.sub(r'\bWORD\b', REPL, s, flags=re.IGNORECASE)`. -/
def replaceWordCIF (w repl : Chars) : ℕ → Option Char → Chars → Chars
  | 0, _, l => l
  | _ + 1, _, [] => []
  | fuel + 1, prev, c :: rest =>
      if (match prev with
          | some p => ! isWordChar p
          | none => true) &&
         (((c :: rest).take w.length).map Char.toLower == w) &&
         (match ((c :: rest).drop w.length).head? with
          | some d => ! isWordChar d
          | none => true) then
        repl ++ replaceWordCIF w repl fuel (repl.getLast?) ((c :: rest).drop w.length)
      else c :: replaceWordCIF w repl fuel (some c) rest

def replaceWordCI (w repl : Chars) (l : Chars) : Chars :=
  replaceWordCIF w repl l.length none l

/-- Characters allowed in a Python numeric literal token. -/
def pyNumTokChar (c : Char) : Bool := numTokChar c || c = '_'

/-- Grammar of a finite decimal `float`-style literal
`[+-]? (digits [. digits?] | . digits) ([eE][+-]?digits)?`, also used to
validate Python number literals.  Returns the value and whether the
token was integral (no dot, no exponent).  Underscore digit separators,
`inf`/`nan` and non-decimal bases are outside the model (no claim
involves them) and are rejected. -/
def decLitVal (t : Chars) : Option (ℚ × Bool) :=
  let (neg, t1) := match t with
    | '-' :: r => (true, r)
    | '+' :: r => (false, r)
    | _ => (false, t)
  let ip := t1.takeWhile Char.isDigit
  let r1 := t1.drop ip.length
  match r1 with
  | [] => if ip = [] then none else some (jsonNumVal neg ip [] false [], true)
  | '.' :: r2 =>
      let fp := r2.takeWhile Char.isDigit
      let r3 := r2.drop fp.length
      if ip = [] ∧ fp = [] then none
      else
        match r3 with
        | [] => some (jsonNumVal neg ip fp false [], false)
        | e :: r4 =>
            if e = 'e' ∨ e = 'E' then
              let (eneg, r5) := match r4 with
                | '-' :: r6 => (true, r6)
                | '+' :: r6 => (false, r6)
                | _ => (false, r4)
              let ed := r5.takeWhile Char.isDigit
              if ed ≠ [] ∧ r5.drop ed.length = [] then
                some (jsonNumVal neg ip fp eneg ed, false)
              else none
            else none
  | e :: r4 =>
      if (e = 'e' ∨ e = 'E') ∧ ip ≠ [] then
        let (eneg, r5) := match r4 with
          | '-' :: r6 => (true, r6)
          | '+' :: r6 => (false, r6)
          | _ => (false, r4)
        let ed := r5.takeWhile Char.isDigit
        if ed ≠ [] ∧ r5.drop ed.length = [] then
          some (jsonNumVal neg ip [] eneg ed, false)
        else none
      else none

/-- Python's `float(str)` builtin: strip surrounding whitespace, then
accept exactly one decimal literal. -/
def pyFloat (l : Chars) : Option ℚ :=
  match decLitVal (pyStrip l) with
  | some (q, _) => some q
  | none => none

/-- Python string-literal body for `ast.literal_eval`, entered after the
opening quote `qc`; a reduced escape set is modelled. -/
def pyLitStringRest (qc : Char) : ℕ → Chars → Option (Chars × Chars)
  | 0, _ => none
  | _ + 1, [] => none
  | fuel + 1, c :: rest =>
      if c = qc then some ([], rest)
      else if c = '\\' then
        match rest with
        | [] => none
        | e :: r2 =>
            let d : Option Char :=
              if e = '\\' then some '\\'
              else if e = apos then some apos
              else if e = '"' then some '"'
              else if e = 'n' then some '\n'
              else if e = 't' then some '\t'
              else if e = 'r' then some '\r'
              else if e = 'b' then some '\x08'
              else if e = 'f' then some '\x0c'
              else if e = '0' then some '\x00'
              else none
            match d with
            | some d' =>
                match pyLitStringRest qc fuel r2 with
                | some (s, r) => some (d' :: s, r)
                | none => none
            | none => none
      else
        match pyLitStringRest qc fuel rest with
        | some (s, r) => some (c :: s, r)
        | none => none

mutual

/-- Value scanner of the `ast.literal_eval` model: Python literals
restricted to `None`/`True`/`False`, decimal numbers, quoted strings,
lists, tuples and string-keyed dicts — the shapes a JSON-like candidate
can take.  Sets, bytes, complex numbers, non-string dict keys and
implicit string concatenation are outside the model and fail. -/
def pyLitValue : ℕ → Chars → Option (Json × Chars)
  | 0, _ => none
  | _ + 1, [] => none
  | fuel + 1, c :: rest =>
      if c = '{' then pyLitMembers fuel true [] rest
      else if c = '[' then pyLitElems fuel ']' true [] rest
      else if c = '(' then pyLitElems fuel ')' true [] rest
      else if c = '"' ∨ c = apos then
        match pyLitStringRest c fuel rest with
        | some (s, r) => some (.str s, r)
        | none => none
      else if c.isDigit || c = '-' || c = '+' || c = '.' then
        let tok := (c :: rest).takeWhile pyNumTokChar
        match decLitVal tok with
        | some (q, true) => some (.jint q.num, (c :: rest).dropWhile pyNumTokChar)
        | some (q, false) => some (.jnum q, (c :: rest).dropWhile pyNumTokChar)
        | none => none
      else
        match c :: rest with
        | 'N' :: 'o' :: 'n' :: 'e' :: r => some (.null, r)
        | 'T' :: 'r' :: 'u' :: 'e' :: r => some (.bool true, r)
        | 'F' :: 'a' :: 'l' :: 's' :: 'e' :: r => some (.bool false, r)
        | _ => none

/-- List/tuple elements up to the closer `cl`. -/
def pyLitElems : ℕ → Char → Bool → List Json → Chars → Option (Json × Chars)
  | 0, _, _, _, _ => none
  | fuel + 1, cl, first, acc, l =>
      match l.dropWhile pyWsChar with
      | [] => none
      | c :: r =>
          if c == cl && (first || ! acc.isEmpty) then some (.arr acc, r)
          else
            match pyLitValue fuel (c :: r) with
            | none => none
            | some (v, r2) =>
                match r2.dropWhile pyWsChar with
                | ',' :: r3 => pyLitElems fuel cl false (acc ++ [v]) r3
                | d :: r3 => if d = cl then some (.arr (acc ++ [v]), r3) else none
                | [] => none

/-- Dict members (string keys only in this model). -/
def pyLitMembers : ℕ → Bool → List (Chars × Json) → Chars → Option (Json × Chars)
  | 0, _, _, _ => none
  | fuel + 1, first, acc, l =>
      match l.dropWhile pyWsChar with
      | [] => none
      | c :: r =>
          if c == '}' && (first || ! acc.isEmpty) then some (.obj acc, r)
          else if c = '"' ∨ c = apos then
            match pyLitStringRest c fuel r with
            | none => none
            | some (k, r2) =>
                match r2.dropWhile pyWsChar with
                | ':' :: r3 =>
                    match pyLitValue fuel (r3.dropWhile pyWsChar) with
                    | none => none
                    | some (v, r4) =>
                        match r4.dropWhile pyWsChar with
                        | ',' :: r5 => pyLitMembers fuel false (pyDictInsert acc k v) r5
                        | '}' :: r5 => some (.obj (pyDictInsert acc k v), r5)
                        | _ => none
                | _ => none
          else none

end

/-- `try_ast_literal_eval` (lines 76-80): replace the JSON keywords
`null`/`true`/`false` (case-insensitive, whole words) by the Python
literals, then evaluate the text as a Python literal. -/
def try_ast_literal_eval (l : Chars) : Option Json :=
  let s2 := replaceWordCI ['n', 'u', 'l', 'l'] ("None".data) l
  let s2 := replaceWordCI ['t', 'r', 'u', 'e'] ("True".data) s2
  let s2 := replaceWordCI ['f', 'a', 'l', 's', 'e'] ("False".data) s2
  let m := pyStrip s2
  match pyLitValue (m.length * 4 + 16) m with
  | some (v, []) => some v
  | _ => none

/-- The exception kinds of the pipeline.  The source raises `ValueError`
with distinct messages at distinct sites (plus untyped `AttributeError`,
`TypeError`, `KeyError`, `IndexError` coming from the runtime); each
site/kind is a constructor. -/
inductive PErr where
  | emptyResponse : PErr
  | noJsonFound : PErr
  | jsonParseFailed (snippet : Chars) : PErr
  | attributeError (msg : Chars) : PErr
  | typeError (msg : Chars) : PErr
  | keyError (msg : Chars) : PErr
  | indexError (msg : Chars) : PErr
deriving DecidableEq

/-- `tolerant_parse_json_from_text` (lines 82-115): direct parse of the
cleaned text, direct parse of the raw text, then candidate extraction
(its failure is re-raised as `No JSON block found`, the
`NoJsonFoundError` of the spec) and the four candidate strategies; every
strategy failure is swallowed by a bare `except`.  Exhaustion raises the
`Failed to parse JSON` error carrying a 500-character snippet. -/
def tolerant_parse_json_from_text (raw : Chars) : Except PErr Json :=
  match pyJsonLoads (clean_markdown_json raw) with
  | some v => .ok v
  | none =>
  match pyJsonLoads raw with
  | some v => .ok v
  | none =>
  match extract_first_json_candidate raw with
  | none => .error .noJsonFound
  | some candidate =>
  match pyJsonLoads candidate with
  | some v => .ok v
  | none =>
  match pyJsonLoads (remove_trailing_commas candidate) with
  | some v => .ok v
  | none =>
  match try_ast_literal_eval candidate with
  | some v => .ok v
  | none =>
  match pyJsonLoads (remove_trailing_commas (singleToDoubleQuotes candidate)) with
  | some v => .ok v
  | none => .error (.jsonParseFailed (candidate.take 500))

/-- Characters kept by `re.sub(r'[^\d\.\-]', '', s)` (lines 128 and 262);
`\d` is modelled over ASCII digits. -/
def numKeepChar (c : Char) : Bool :=
  c.isDigit || c = '.' || c = '-'

/-- Python `int(x)` on a float: truncation toward zero. -/
def ratTrunc (q : ℚ) : ℤ :=
  Int.tdiv q.num (q.den : ℤ)

/-- String branch of `normalize_number` (lines 123-132): strip, turn
no-break spaces into spaces, remove spaces, resolve the European
thousands/decimal convention, drop every character that is not a digit,
dot or minus, then convert with `float` (empty string and conversion
failure both give `None`). -/
def normStrNumber (s : Chars) : Option ℚ :=
  let s1 := ((pyStrip s).map fun c => if c = nbsp then ' ' else c).filter
    fun c => c ≠ ' '
  let s2 :=
    if (s1.any fun c => c = ',') && (s1.any fun c => c = '.') then
      (s1.filter fun c => c ≠ '.').map fun c => if c = ',' then '.' else c
    else
      s1.map fun c => if c = ',' then '.' else c
  let s3 := s2.filter numKeepChar
  if s3 = [] then none else pyFloat s3

/-- Decimal digit characters of a natural number. -/
def natDigits (n : ℕ) : Chars := Nat.toDigits 10 n

/-- Python `repr` of an `int`. -/
def reprInt (n : ℤ) : Chars :=
  if n < 0 then '-' :: natDigits n.natAbs else natDigits n.natAbs

/-- Fractional digits of `0 ≤ q < 1`, at most `fuel` of them (Python
prints the shortest round-tripping form of a float; the pipeline values
are short finite decimals, for which this expansion is the same). -/
def fracDigits : ℕ → ℕ → ℕ → Chars
  | 0, _, _ => []
  | fuel + 1, num, den =>
      if num = 0 ∨ den = 0 then []
      else
        let n10 := num * 10
        Char.ofNat (48 + n10 / den) :: fracDigits fuel (n10 % den) den

/-- Python `repr` of a finite float, modelled for decimal values. -/
def reprQ (q : ℚ) : Chars :=
  let sign : Chars := if q.num < 0 then ['-'] else []
  let na : ℕ := q.num.natAbs
  let fd := fracDigits 17 (na % q.den) q.den
  sign ++ natDigits (na / q.den) ++ '.' :: (if fd = [] then ['0'] else fd)

def hexDigit (n : ℕ) : Char :=
  if n < 10 then Char.ofNat (48 + n) else Char.ofNat (87 + n)

def hex4 (n : ℕ) : Chars :=
  [hexDigit (n / 4096 % 16), hexDigit (n / 256 % 16), hexDigit (n / 16 % 16),
   hexDigit (n % 16)]

/-- `json.dumps` escaping of one character (default `ensure_ascii`):
non-ASCII characters become `\uXXXX` (surrogate pairs beyond the BMP). -/
def dumpsEscChar (c : Char) : Chars :=
  if c = '"' then ['\\', '"']
  else if c = '\\' then ['\\', '\\']
  else if c = '\n' then ['\\', 'n']
  else if c = '\t' then ['\\', 't']
  else if c = '\r' then ['\\', 'r']
  else if c = '\x08' then ['\\', 'b']
  else if c = '\x0c' then ['\\', 'f']
  else if c.toNat < 0x20 then '\\' :: 'u' :: hex4 c.toNat
  else if c.toNat < 0x7F then [c]
  else if c.toNat ≤ 0xFFFF then '\\' :: 'u' :: hex4 c.toNat
  else
    let n := c.toNat - 0x10000
    ('\\' :: 'u' :: hex4 (0xD800 + n / 1024)) ++ ('\\' :: 'u' :: hex4 (0xDC00 + n % 1024))

def dumpsStr (s : Chars) : Chars :=
  '"' :: s.flatMap dumpsEscChar ++ ['"']

mutual

/-- Python `json.dumps` with default separators (`", "` and `": "`),
used by `parse_llm_response` to re-serialize structured content. -/
def jsonDumps : Json → Chars
  | .null => "null".data
  | .bool true => "true".data
  | .bool false => "false".data
  | .jint n => reprInt n
  | .jnum q => reprQ q
  | .str s => dumpsStr s
  | .arr [] => "[]".data
  | .arr (x :: xs) => '[' :: (jsonDumps x ++ dumpsArrRest xs) ++ [']']
  | .obj [] => "{}".data
  | .obj ((k, v) :: kvs) =>
      '{' :: (dumpsStr k ++ ':' :: ' ' :: jsonDumps v ++ dumpsObjRest kvs) ++ ['}']

def dumpsArrRest : List Json → Chars
  | [] => []
  | x :: xs => ',' :: ' ' :: (jsonDumps x ++ dumpsArrRest xs)

def dumpsObjRest : List (Chars × Json) → Chars
  | [] => []
  | (k, v) :: kvs => ',' :: ' ' :: (dumpsStr k ++ ':' :: ' ' :: jsonDumps v ++ dumpsObjRest kvs)

end

/-- Python `repr` escaping inside a single-quoted string literal. -/
def pyReprEscChar (c : Char) : Chars :=
  if c = apos then ['\\', apos]
  else if c = '\\' then ['\\', '\\']
  else if c = '\n' then ['\\', 'n']
  else if c = '\t' then ['\\', 't']
  else if c = '\r' then ['\\', 'r']
  else [c]

mutual

/-- Python `str()`/`repr()` of a parsed JSON value, used by the
`str(s)` fallback of `normalize_number` when it is handed a list or a
dict: single-quoted strings, `None`/`True`/`False`, `", "` and `": "`
separators. -/
def pyRepr : Json → Chars
  | .null => "None".data
  | .bool true => "True".data
  | .bool false => "False".data
  | .jint n => reprInt n
  | .jnum q => reprQ q
  | .str s => apos :: s.flatMap pyReprEscChar ++ [apos]
  | .arr [] => "[]".data
  | .arr (x :: xs) => '[' :: (pyRepr x ++ pyReprArrRest xs) ++ [']']
  | .obj [] => "{}".data
  | .obj ((k, v) :: kvs) =>
      '{' :: ((apos :: k.flatMap pyReprEscChar ++ [apos]) ++ ':' :: ' ' :: pyRepr v ++
        pyReprObjRest kvs) ++ ['}']

def pyReprArrRest : List Json → Chars
  | [] => []
  | x :: xs => ',' :: ' ' :: (pyRepr x ++ pyReprArrRest xs)

def pyReprObjRest : List (Chars × Json) → Chars
  | [] => []
  | (k, v) :: kvs =>
      ',' :: ' ' :: ((apos :: k.flatMap pyReprEscChar ++ [apos]) ++ ':' :: ' ' :: pyRepr v ++
        pyReprObjRest kvs)

end

/-- `normalize_number` (lines 117-132).  The argument is a Python value
coming out of the parsed JSON: `none` is Python `None` (also the parse
of JSON `null`); a Python `bool` is an `int` instance, so `float(True)`
is `1.0`; native numbers pass through `float`; anything else goes
through `str()` and the string normalization.  Never raises: the result
is `none` exactly when the cleaned string is empty or unparsable. -/
def normalize_number : Option Json → Option ℚ
  | none => none
  | some .null => none
  | some (.bool b) => some (if b then 1 else 0)
  | some (.jint n) => some (n : ℚ)
  | some (.jnum q) => some q
  | some (.str s) => normStrNumber s
  | some (.arr xs) => normStrNumber (pyRepr (.arr xs))
  | some (.obj kvs) => normStrNumber (pyRepr (.obj kvs))

/-- Python truthiness of a parsed JSON value. -/
def pyFalsy : Json → Bool
  | .null => true
  | .bool b => ! b
  | .jint n => n == 0
  | .jnum q => q == 0
  | .str s => s.isEmpty
  | .arr xs => xs.isEmpty
  | .obj kvs => kvs.isEmpty

/-- `d.get(k, default)`: the stored value if the key is present (even if
it is JSON `null`), the default otherwise. -/
def pyDictGetD (kvs : List (Chars × Json)) (k : Chars) (d : Json) : Json :=
  match pyLookup kvs k with
  | some v => v
  | none => d

/-- `d.get(k)` seen through an `is not None` test: a missing key and a
stored JSON `null` are both Python `None`. -/
def pyGetOpt (kvs : List (Chars × Json)) (k : Chars) : Option Json :=
  match pyLookup kvs k with
  | some .null => none
  | some v => some v
  | none => none

/-- Python `a or b` on parsed JSON values. -/
def pyOrJ (a b : Json) : Json :=
  if pyFalsy a then b else a

def qteKey : Chars := "Qté".data
def puKey : Chars := "P.U. H.T.".data
def totKey : Chars := "Total H.T.".data
def tvaKey : Chars := "Taux TVA".data
def itemsKey : Chars := "items".data
def choicesKey : Chars := "choices".data
def messageKey : Chars := "message".data
def deltaKey : Chars := "delta".data
def contentKey : Chars := "content".data
def produitKey : Chars := "Produit".data

/-- `normalize_number(...) or 0` (line 245): Python `or` yields the
right operand when the left is falsy, i.e. when the normalizer returned
`None` or `0.0`. -/
def orZero : Option ℚ → ℚ
  | some q => if q = 0 then 0 else q
  | none => 0

def jsonOfOptNum : Option ℚ → Json
  | some q => .jnum q
  | none => .null

/-- `t2 = t.replace(',', '.').strip()` of line 254. -/
def tvaCommaToDot (s : Chars) : Chars :=
  pyStrip (s.map fun c => if c = ',' then '.' else c)

/-- `float(t2.replace('%', '').strip())` of line 257. -/
def tvaPercentVal (s : Chars) : Option ℚ :=
  pyFloat (pyStrip ((tvaCommaToDot s).filter fun c => c ≠ '%'))

/-- `float(re.sub(r'[^\d\.\-]', '', t2))` of line 262. -/
def tvaPlainVal (s : Chars) : Option ℚ :=
  pyFloat ((tvaCommaToDot s).filter numKeepChar)

/-- Bespoke `Taux TVA` handling for string values (lines 253-264):
commas to dots and strip; if a percent sign is present, drop every `%`
and parse with `float`, otherwise keep only digits/dot/minus and parse;
both bare `except` blocks downgrade a failure to `None`. -/
def normalizeTauxTva (s : Chars) : Json :=
  if (tvaCommaToDot s).any fun c => c = '%' then
    match tvaPercentVal s with
    | some q => .jnum q
    | none => .null
  else
    match tvaPlainVal s with
    | some q => .jnum q
    | none => .null

/-- Lines 244-245: `if itm.get("Qté") is not None: itm["Qté"] =
int(normalize_number(itm.get("Qté")) or 0)`. -/
def qtyStep (itm : List (Chars × Json)) : List (Chars × Json) :=
  match pyGetOpt itm qteKey with
  | some v => pyDictInsert itm qteKey (.jint (ratTrunc (orZero (normalize_number (some v)))))
  | none => itm

/-- Lines 247-249: `if itm.get(field) is not None: itm[field] =
normalize_number(itm.get(field))` for a money field. -/
def priceStep (key : Chars) (itm : List (Chars × Json)) : List (Chars × Json) :=
  match pyGetOpt itm key with
  | some v => pyDictInsert itm key (jsonOfOptNum (normalize_number (some v)))
  | none => itm

/-- Lines 252-264: the `Taux TVA` mutation (string values only). -/
def tvaStep (itm : List (Chars × Json)) : List (Chars × Json) :=
  match pyGetOpt itm tvaKey with
  | some (.str s) => pyDictInsert itm tvaKey (normalizeTauxTva s)
  | _ => itm

/-- Per-item mutation of the loop body (lines 243-264), in source
order: quantity, unit price, line total, VAT rate; later reads see the
earlier mutations of the same item, as in the source. -/
def normalizeItemFields (itm : List (Chars × Json)) : List (Chars × Json) :=
  tvaStep (priceStep totKey (priceStep puKey (qtyStep itm)))

def itemNoGetMsg : Chars := "item object has no attribute get".data
def extractedNoGetMsg : Chars := "parsed value has no attribute get".data
def notIterableMsg : Chars := "items object is not iterable".data
def choiceNoGetMsg : Chars := "choice object has no attribute get".data
def notSubscriptableMsg : Chars := "choices object is not subscriptable".data
def zeroKeyMsg : Chars := "key 0 not found".data

/-- The item loop of `extract_order_data` (lines 243-264) over the
`items` value: every element must be a dict, otherwise `itm.get` raises
`AttributeError`. -/
def normalizeItemsList : List Json → Except PErr (List Json)
  | [] => .ok []
  | .obj itm :: rest =>
      match normalizeItemsList rest with
      | .ok rs => .ok (.obj (normalizeItemFields itm) :: rs)
      | .error e => .error e
  | _ :: _ => .error (.attributeError itemNoGetMsg)

/-- Lines 241-267 of `extract_order_data`: `extracted.get("items", [])`
(an `AttributeError` if the parsed value is not a dict), the item loop
(a `TypeError` if `items` is not iterable, an `AttributeError` on the
first element of a non-empty string or dict), then
`extracted["items"] = items`. -/
def normalizeExtractedData (extracted : Json) : Except PErr Json :=
  match extracted with
  | .obj kvs =>
      match pyDictGetD kvs itemsKey (.arr []) with
      | .arr xs =>
          match normalizeItemsList xs with
          | .ok xs2 => .ok (.obj (pyDictInsert kvs itemsKey (.arr xs2)))
          | .error e => .error e
      | .str [] => .ok (.obj (pyDictInsert kvs itemsKey (.str [])))
      | .str (_ :: _) => .error (.attributeError itemNoGetMsg)
      | .obj [] => .ok (.obj (pyDictInsert kvs itemsKey (.obj [])))
      | .obj (_ :: _) => .error (.attributeError itemNoGetMsg)
      | _ => .error (.typeError notIterableMsg)
  | _ => .error (.attributeError extractedNoGetMsg)

/-- `parse_llm_response` (lines 217-233): an empty (falsy) `choices`
raises the dedicated `No choices returned by LLM` error
(`EmptyResponseError` of the spec); otherwise the first choice's
`message` (or `delta`, or `{}`) supplies `content`, which is forwarded
to the tolerant extractor — re-serialized with `json.dumps` when it is
not already a string. -/
def parse_llm_response (resp : Json) : Except PErr Json :=
  match resp with
  | .obj kvs =>
      let choices := pyDictGetD kvs choicesKey (.arr [])
      if pyFalsy choices then .error .emptyResponse
      else
        match choices with
        | .arr [] => .error .emptyResponse
        | .arr (c0 :: _) =>
            match c0 with
            | .obj cs =>
                let message := pyOrJ (pyDictGetD cs messageKey .null)
                  (pyOrJ (pyDictGetD cs deltaKey .null) (.obj []))
                match message with
                | .obj ms =>
                    match pyLookup ms contentKey with
                    | some (.obj o) => tolerant_parse_json_from_text (jsonDumps (.obj o))
                    | some (.str s) => tolerant_parse_json_from_text s
                    | _ => tolerant_parse_json_from_text (jsonDumps c0)
                | _ => .error (.attributeError choiceNoGetMsg)
            | _ => .error (.attributeError choiceNoGetMsg)
        | .str _ => .error (.attributeError choiceNoGetMsg)
        | .obj _ => .error (.keyError zeroKeyMsg)
        | _ => .error (.typeError notSubscriptableMsg)
  | _ => .error (.attributeError extractedNoGetMsg)

/-- `extract_order_data` (lines 235-267) downstream of the external
collaborators: `encode_file_to_dataurl` and `call_llm_extraction` are
the I/O boundary of spec §4.4, so the embedded contract starts from the
response envelope they produce. -/
def extract_order_data (resp : Json) : Except PErr Json :=
  match parse_llm_response resp with
  | .ok extracted => normalizeExtractedData extracted
  | .error e => .error e

/-- Field access on a parsed JSON object. -/
def jGet (j : Json) (k : Chars) : Option Json :=
  match j with
  | .obj kvs => pyLookup kvs k
  | _ => none

def jGetStr (j : Json) (k : Chars) : Option Chars :=
  match jGet j k with
  | some (.str s) => some s
  | _ => none

def jGetInt (j : Json) (k : Chars) : Option ℤ :=
  match jGet j k with
  | some (.jint n) => some n
  | _ => none

def jGetNum (j : Json) (k : Chars) : Option ℚ :=
  match jGet j k with
  | some (.jnum q) => some q
  | _ => none

def jItems (j : Json) : Option (List Json) :=
  match jGet j itemsKey with
  | some (.arr xs) => some xs
  | _ => none

def jItem0 (j : Json) : Option Json :=
  match jItems j with
  | some (x :: _) => some x
  | _ => none

def jInt? : Json → Option ℤ
  | .jint n => some n
  | _ => none

/-- The error kind of a failed run (`none` on success). -/
def errKind? : Except PErr Json → Option PErr
  | .error k => some k
  | .ok _ => none

def itemGetInt (itm : List (Chars × Json)) (k : Chars) : Option ℤ :=
  match pyLookup itm k with
  | some (.jint n) => some n
  | _ => none

def itemGetNum (itm : List (Chars × Json)) (k : Chars) : Option ℚ :=
  match pyLookup itm k with
  | some (.jnum q) => some q
  | _ => none

/-- Is the stored value of `k` the explicit JSON `null` (Python `None`)? -/
def itemHasNull (itm : List (Chars × Json)) (k : Chars) : Bool :=
  match pyLookup itm k with
  | some .null => true
  | _ => false

/-! ## The trailing-comma input class of claim C6

The input class of claim C6, "valid JSON except for one trailing comma
before a closing brace", is characterised by the JSON grammar extended
with trailing commas in objects: the scanners below are the strict
scanners above with exactly one extra arm — after an object member, a
comma followed by whitespace and `}` also closes the object — and they
additionally return how many times that arm fired.  Scanning is
otherwise identical to strict `json.loads`, so a text accepted with
count 1 is one that becomes strictly valid when its single trailing
comma is removed; acceptance with count 0 is strict validity. -/

mutual

/-- Value scanner of the trailing-comma-extended grammar. -/
def parseValueTc : ℕ → Chars → Option (Json × ℕ × Chars)
  | 0, _ => none
  | _ + 1, [] => none
  | fuel + 1, c :: rest =>
      if c = '{' then parseMembersFirstTc fuel rest
      else if c = '[' then parseElemsFirstTc fuel rest
      else if c = '"' then
        match parseStringRest fuel rest with
        | some (s, r) => some (.str s, 0, r)
        | none => none
      else if c.isDigit || c = '-' then
        match parseNumber (c :: rest) with
        | some (v, r) => some (v, 0, r)
        | none => none
      else
        match c :: rest with
        | 'n' :: 'u' :: 'l' :: 'l' :: r => some (.null, 0, r)
        | 't' :: 'r' :: 'u' :: 'e' :: r => some (.bool true, 0, r)
        | 'f' :: 'a' :: 'l' :: 's' :: 'e' :: r => some (.bool false, 0, r)
        | _ => none

/-- Array scanner of the extended grammar, entered after `[`. -/
def parseElemsFirstTc : ℕ → Chars → Option (Json × ℕ × Chars)
  | 0, _ => none
  | fuel + 1, l =>
      match l.dropWhile jsonWsChar with
      | ']' :: r => some (.arr [], 0, r)
      | l1 => parseElemsLoopTc fuel [] l1

/-- Array element loop of the extended grammar. -/
def parseElemsLoopTc : ℕ → List Json → Chars → Option (Json × ℕ × Chars)
  | 0, _, _ => none
  | fuel + 1, acc, l =>
      match parseValueTc fuel (l.dropWhile jsonWsChar) with
      | none => none
      | some (v, n, r) =>
          match r.dropWhile jsonWsChar with
          | ',' :: r2 =>
              match parseElemsLoopTc fuel (acc ++ [v]) r2 with
              | some (w, n2, r3) => some (w, n + n2, r3)
              | none => none
          | ']' :: r2 => some (.arr (acc ++ [v]), n, r2)
          | _ => none

/-- Object scanner of the extended grammar, entered after `{`. -/
def parseMembersFirstTc : ℕ → Chars → Option (Json × ℕ × Chars)
  | 0, _ => none
  | fuel + 1, l =>
      match l.dropWhile jsonWsChar with
      | '}' :: r => some (.obj [], 0, r)
      | l1 => parseMembersLoopTc fuel [] l1

/-- Object member loop of the extended grammar: the `,` then `}` arm is
the single relaxation over the strict scanner, and bumps the count. -/
def parseMembersLoopTc : ℕ → List (Chars × Json) → Chars → Option (Json × ℕ × Chars)
  | 0, _, _ => none
  | fuel + 1, acc, l =>
      match l.dropWhile jsonWsChar with
      | '"' :: r =>
          match parseStringRest fuel r with
          | none => none
          | some (k, r2) =>
              match r2.dropWhile jsonWsChar with
              | ':' :: r3 =>
                  match parseValueTc fuel (r3.dropWhile jsonWsChar) with
                  | none => none
                  | some (v, n, r4) =>
                      match r4.dropWhile jsonWsChar with
                      | ',' :: r5 =>
                          match r5.dropWhile jsonWsChar with
                          | '}' :: r6 => some (.obj (pyDictInsert acc k v), n + 1, r6)
                          | _ =>
                              match parseMembersLoopTc fuel (pyDictInsert acc k v) r5 with
                              | some (w, n2, r6) => some (w, n + n2, r6)
                              | none => none
                      | '}' :: r5 => some (.obj (pyDictInsert acc k v), n, r5)
                      | _ => none
              | _ => none
      | _ => none

end

/-- Whole-text acceptance by the trailing-comma-extended grammar with
the count of trailing commas consumed; claim C6's class "valid JSON
except for one trailing comma before a closing brace" is acceptance
with count 1. -/
def jsonLoadsTc (l : Chars) : Option (Json × ℕ) :=
  let m := jsonTrim l
  match parseValueTc (m.length * 4 + 16) m with
  | some (v, n, []) => some (v, n)
  | _ => none


/-! ## Concrete scenario inputs -/

/-- The model content of the end-to-end scenario (spec §8): a `json`
fenced block holding the order with the single Savon item. -/
def contentC2 : Chars :=
  "```json\n\x7b\"document_type\":\"order\",\"currency\":\"EUR\",\"extraction_confidence\":0.9,\"items\":[\x7b\"Produit\":\"Savon\",\"Qté\":\"2\",\"P.U. H.T.\":\"5,50\",\"Total H.T.\":\"11,00\",\"Taux TVA\":\"20,00%\"\x7d]\x7d\n```".data

/-- A response envelope delivering `contentC2` as the first choice's
message content. -/
def envC2 : Json :=
  .obj [(choicesKey, .arr [.obj [(messageKey, .obj [(contentKey, .str contentC2)])]])]

/-- A JSON-like text that is valid JSON except for one trailing comma
before the closing brace — but whose string value also ends in a
comma-brace pair: `{"a": "x,}",}`. -/
def trailingCommaTrap : Chars :=
  "\x7b\"a\": \"x,\x7d\",\x7d".data

/-- `trailingCommaTrap` with only its trailing comma removed (the
intended repair): `{"a": "x,}"}`. -/
def trailingCommaTrapRepaired : Chars :=
  "\x7b\"a\": \"x,\x7d\"\x7d".data

/-! ## Dictionary and step lemmas -/

theorem pyLookup_insert_self (kvs : List (Chars × Json)) (k : Chars) (v : Json) :
    pyLookup (pyDictInsert kvs k v) k = some v := by
  induction kvs with
  | nil => simp [pyDictInsert, pyLookup]
  | cons p rest ih =>
      obtain ⟨k0, v0⟩ := p
      by_cases h : k0 = k
      · simp [pyDictInsert, pyLookup, h]
      · simp [pyDictInsert, pyLookup, h, ih]

theorem pyLookup_insert_ne (kvs : List (Chars × Json)) (k' k : Chars) (v : Json)
    (h : k' ≠ k) : pyLookup (pyDictInsert kvs k' v) k = pyLookup kvs k := by
  induction kvs with
  | nil => simp [pyDictInsert, pyLookup, h]
  | cons p rest ih =>
      obtain ⟨k0, v0⟩ := p
      by_cases h0 : k0 = k'
      · subst h0
        simp [pyDictInsert, pyLookup, h]
      · simp [pyDictInsert, pyLookup, h0, ih]

theorem qtyStep_lookup_ne (itm : List (Chars × Json)) (k : Chars) (h : k ≠ qteKey) :
    pyLookup (qtyStep itm) k = pyLookup itm k := by
  unfold qtyStep
  cases pyGetOpt itm qteKey with
  | none => rfl
  | some v => exact pyLookup_insert_ne itm qteKey k _ fun he => h he.symm

theorem priceStep_lookup_ne (key : Chars) (itm : List (Chars × Json)) (k : Chars)
    (h : k ≠ key) : pyLookup (priceStep key itm) k = pyLookup itm k := by
  unfold priceStep
  cases pyGetOpt itm key with
  | none => rfl
  | some v => exact pyLookup_insert_ne itm key k _ fun he => h he.symm

theorem tvaStep_lookup_ne (itm : List (Chars × Json)) (k : Chars) (h : k ≠ tvaKey) :
    pyLookup (tvaStep itm) k = pyLookup itm k := by
  unfold tvaStep
  cases pyGetOpt itm tvaKey with
  | none => rfl
  | some v =>
      cases v with
      | str s => exact pyLookup_insert_ne itm tvaKey k _ fun he => h he.symm
      | null => rfl
      | bool b => rfl
      | jint n => rfl
      | jnum q => rfl
      | arr xs => rfl
      | obj kvs => rfl

theorem pyGetOpt_congr {a b : List (Chars × Json)} (k : Chars)
    (h : pyLookup a k = pyLookup b k) : pyGetOpt a k = pyGetOpt b k := by
  unfold pyGetOpt
  rw [h]

/-- The candidate scan finds nothing in a text without `{` and `[`. -/
theorem scanCandidate_eq_none (m : Chars) (h : ∀ c ∈ m, c ≠ '{' ∧ c ≠ '[') :
    scanCandidate m = none := by
  induction m with
  | nil => rfl
  | cons c rest ih =>
      have hc := h c (by simp)
      rw [scanCandidate, if_neg, if_neg]
      · exact ih fun d hd => h d (by simp [hd])
      · exact fun hand => hc.2 hand.1
      · exact fun hand => hc.1 hand.1

theorem mem_dropWhile {c : Char} {p : Char → Bool} {l : Chars}
    (h : c ∈ l.dropWhile p) : c ∈ l :=
  (List.dropWhile_sublist p).mem h

theorem mem_dropTrailing {c : Char} {p : Char → Bool} {l : Chars}
    (h : c ∈ dropTrailing p l) : c ∈ l := by
  unfold dropTrailing at h
  rw [List.mem_reverse] at h
  exact List.mem_reverse.mp (mem_dropWhile h)

theorem mem_pyStrip {c : Char} {l : Chars} (h : c ∈ pyStrip l) : c ∈ l :=
  mem_dropWhile (mem_dropTrailing h)

theorem mem_subFenceOpen {c : Char} {l : Chars} (h : c ∈ subFenceOpen l) : c ∈ l := by
  simp only [subFenceOpen] at h
  split at h
  · split at h
    · exact (List.drop_sublist _ _).mem ((List.drop_sublist _ _).mem (mem_dropWhile h))
    · exact (List.drop_sublist _ _).mem (mem_dropWhile h)
  · exact h

theorem mem_subFenceClose {c : Char} {l : Chars} (h : c ∈ subFenceClose l) : c ∈ l := by
  unfold subFenceClose at h
  split at h
  · have h1 := mem_dropTrailing h
    rw [List.mem_reverse] at h1
    exact List.mem_reverse.mp ((List.drop_sublist _ _).mem h1)
  · exact h

theorem mem_clean_markdown_json {c : Char} {l : Chars}
    (h : c ∈ clean_markdown_json l) : c ∈ l := by
  unfold clean_markdown_json at h
  exact mem_pyStrip (mem_subFenceOpen (mem_pyStrip (mem_subFenceClose (mem_pyStrip h))))


/-! ## Parser consumption lemmas

`json.loads` success information used by claim C4: a successful scan
consumes a non-empty prefix whose first and last characters are never
whitespace (every token starts and ends at a structural character). -/

theorem all_append_dropWhile (p : Char → Bool) (w z : Chars) (hw : w.all p = true) :
    (w ++ z).dropWhile p = z.dropWhile p := by
  induction w with
  | nil => rfl
  | cons c cs ih =>
      simp only [List.all_cons, Bool.and_eq_true] at hw
      simp [List.dropWhile_cons, hw.1, ih hw.2]

theorem dropWhile_cons_neg (p : Char → Bool) (c : Char) (t : Chars)
    (h : p c = false) : (c :: t).dropWhile p = c :: t := by
  simp [List.dropWhile_cons, h]

theorem dropTrailing_append_all (p : Char → Bool) (z w : Chars)
    (hw : w.all p = true) : dropTrailing p (z ++ w) = dropTrailing p z := by
  unfold dropTrailing
  rw [List.reverse_append, all_append_dropWhile p w.reverse z.reverse (by simpa using hw)]

theorem dropTrailing_concat_neg (p : Char → Bool) (z : Chars) (ch : Char)
    (h : p ch = false) : dropTrailing p (z ++ [ch]) = z ++ [ch] := by
  unfold dropTrailing
  rw [List.reverse_append]
  simp [List.dropWhile_cons, h]

theorem strip_eq_self (q : Char → Bool) {l : Chars} {c ch : Char} {t p : Chars}
    (hform : l = c :: t) (hlast : l = p ++ [ch])
    (hc : q c = false) (hch : q ch = false) :
    dropTrailing q (l.dropWhile q) = l := by
  rw [hform, dropWhile_cons_neg _ _ _ hc, ← hform, hlast, dropTrailing_concat_neg _ _ _ hch]

theorem pyStrip_eq_self {l : Chars} {c ch : Char} {t p : Chars}
    (hform : l = c :: t) (hlast : l = p ++ [ch])
    (hc : pyWsChar c = false) (hch : pyWsChar ch = false) : pyStrip l = l :=
  strip_eq_self pyWsChar hform hlast hc hch

theorem jsonTrim_decomp (t : Chars) :
    ∃ w1 w2, t = w1 ++ jsonTrim t ++ w2 ∧ w1.all jsonWsChar = true ∧
      w2.all jsonWsChar = true := by
  refine ⟨t.takeWhile jsonWsChar,
    ((t.dropWhile jsonWsChar).reverse.takeWhile jsonWsChar).reverse, ?_, ?_, ?_⟩
  · conv_lhs => rw [← List.takeWhile_append_dropWhile (p := jsonWsChar) (l := t)]
    rw [List.append_assoc]
    congr 1
    unfold jsonTrim dropTrailing
    rw [← List.reverse_append, List.takeWhile_append_dropWhile, List.reverse_reverse]
  · exact List.all_takeWhile
  · rw [List.all_reverse]
    exact List.all_takeWhile

theorem numTok_not_ws {c : Char} (h : numTokChar c = true) : pyWsChar c = false := by
  cases hpw : pyWsChar c with
  | false => rfl
  | true =>
      exfalso
      simp only [pyWsChar, jsonWsChar, Bool.or_eq_true, beq_iff_eq] at hpw
      rcases hpw with (((((h1 | h1) | h1) | h1) | h1) | h1) | h1 <;> subst h1 <;>
        simp [numTokChar] at h

/-- Manual unfolding equation for the string scanner (the automatic
equation generator does not handle its nested matches). -/
theorem parseStringRest_cons (fuel : ℕ) (c : Char) (rest : Chars) :
    parseStringRest (fuel + 1) (c :: rest) =
      (if c = '"' then some ([], rest)
      else if c = '\\' then
        match rest with
        | [] => none
        | e :: r2 =>
            let simpleEsc : Option Char :=
              if e = '"' then some '"'
              else if e = '\\' then some '\\'
              else if e = '/' then some '/'
              else if e = 'b' then some '\x08'
              else if e = 'f' then some '\x0c'
              else if e = 'n' then some '\n'
              else if e = 'r' then some '\r'
              else if e = 't' then some '\t'
              else none
            match simpleEsc with
            | some d =>
                match parseStringRest fuel r2 with
                | some (s, r) => some (d :: s, r)
                | none => none
            | none =>
                if e = 'u' then
                  match r2 with
                  | h1 :: h2 :: h3 :: h4 :: r6 =>
                      match hexVal? h1, hexVal? h2, hexVal? h3, hexVal? h4 with
                      | some a, some b, some c3, some d =>
                          let n := ((a * 16 + b) * 16 + c3) * 16 + d
                          if 0xD800 ≤ n ∧ n < 0xE000 then none
                          else
                            match parseStringRest fuel r6 with
                            | some (s, r) => some (Char.ofNat n :: s, r)
                            | none => none
                      | _, _, _, _ => none
                  | _ => none
                else none
      else if c.toNat < 0x20 then none
      else
        match parseStringRest fuel rest with
        | some (s, r) => some (c :: s, r)
        | none => none) := rfl

theorem parse_last_char (fuel : ℕ) :
    (∀ l v r, parseValue fuel l = some (v, r) →
      ∃ p ch, l = p ++ ch :: r ∧ pyWsChar ch = false) ∧
    (∀ l s r, parseStringRest fuel l = some (s, r) → ∃ p, l = p ++ '"' :: r) ∧
    (∀ l v r, parseElemsFirst fuel l = some (v, r) → ∃ p, l = p ++ ']' :: r) ∧
    (∀ acc l v r, parseElemsLoop fuel acc l = some (v, r) → ∃ p, l = p ++ ']' :: r) ∧
    (∀ l v r, parseMembersFirst fuel l = some (v, r) → ∃ p, l = p ++ '}' :: r) ∧
    (∀ acc l v r, parseMembersLoop fuel acc l = some (v, r) → ∃ p, l = p ++ '}' :: r) := by
  induction fuel with
  | zero =>
      refine ⟨fun l v r h => ?_, fun l s r h => ?_, fun l v r h => ?_,
        fun acc l v r h => ?_, fun l v r h => ?_, fun acc l v r h => ?_⟩ <;>
        simp [parseValue, parseStringRest, parseElemsFirst, parseElemsLoop,
          parseMembersFirst, parseMembersLoop] at h
  | succ n ih =>
      obtain ⟨ihV, ihS, ihEF, ihEL, ihMF, ihML⟩ := ih
      have hTWdeco : ∀ (x : Chars), x.takeWhile jsonWsChar ++ x.dropWhile jsonWsChar = x :=
        fun x => List.takeWhile_append_dropWhile jsonWsChar x
      refine ⟨?_, ?_, ?_, ?_, ?_, ?_⟩
      -- parseValue
      · intro l v r h
        match l with
        | [] => simp [parseValue] at h
        | c :: rest =>
          rw [parseValue] at h
          split at h
          next hc =>
            obtain ⟨p, hp⟩ := ihMF rest v r h
            exact ⟨c :: p, '}', by rw [hp]; rfl, by decide⟩
          next hc =>
          split at h
          next hc2 =>
            obtain ⟨p, hp⟩ := ihEF rest v r h
            exact ⟨c :: p, ']', by rw [hp]; rfl, by decide⟩
          next hc2 =>
          split at h
          next hc3 =>
            cases hs : parseStringRest n rest with
            | none => rw [hs] at h; simp at h
            | some pr =>
                obtain ⟨s', r'⟩ := pr
                rw [hs] at h
                simp only [Option.some.injEq, Prod.mk.injEq] at h
                obtain ⟨rfl, rfl⟩ := h
                obtain ⟨p, hp⟩ := ihS rest s' r' hs
                exact ⟨c :: p, '"', by rw [hp]; rfl, by decide⟩
          next hc3 =>
          split at h
          next hc4 =>
            simp only [parseNumber] at h
            cases hn : parseNumFromTok ((c :: rest).takeWhile numTokChar) with
            | none => rw [hn] at h; simp at h
            | some j =>
                rw [hn] at h
                simp only [Option.some.injEq, Prod.mk.injEq] at h
                obtain ⟨rfl, rfl⟩ := h
                have hctok : numTokChar c = true := by
                  have hc4x : c.isDigit = true ∨ c = '-' := by simpa using hc4
                  rcases hc4x with hd | hd
                  · simp [numTokChar, hd]
                  · subst hd; decide
                have htokform : (c :: rest).takeWhile numTokChar =
                    c :: rest.takeWhile numTokChar := by
                  simp [List.takeWhile_cons, hctok]
                have htokne : (c :: rest).takeWhile numTokChar ≠ [] := by
                  rw [htokform]; simp
                have hlastmem := List.getLast_mem htokne
                have hlasttok : numTokChar (((c :: rest).takeWhile numTokChar).getLast htokne) = true :=
                  List.mem_takeWhile_imp hlastmem
                refine ⟨((c :: rest).takeWhile numTokChar).dropLast,
                  ((c :: rest).takeWhile numTokChar).getLast htokne, ?_, numTok_not_ws hlasttok⟩
                conv_lhs => rw [← List.takeWhile_append_dropWhile (p := numTokChar) (l := c :: rest)]
                conv_lhs => rw [← List.dropLast_append_getLast htokne]
                simp [List.append_assoc]
          next hc4 =>
            split at h
            next r' heq =>
              simp only [Option.some.injEq, Prod.mk.injEq] at h
              obtain ⟨rfl, rfl⟩ := h
              exact ⟨['n', 'u', 'l'], 'l', by rw [heq]; rfl, by decide⟩
            next r' heq =>
              simp only [Option.some.injEq, Prod.mk.injEq] at h
              obtain ⟨rfl, rfl⟩ := h
              exact ⟨['t', 'r', 'u'], 'e', by rw [heq]; rfl, by decide⟩
            next r' heq =>
              simp only [Option.some.injEq, Prod.mk.injEq] at h
              obtain ⟨rfl, rfl⟩ := h
              exact ⟨['f', 'a', 'l', 's'], 'e', by rw [heq]; rfl, by decide⟩
            next => simp at h
      -- parseStringRest
      · intro l s r h
        match l with
        | [] => simp [parseStringRest] at h
        | c :: rest =>
          rw [parseStringRest_cons] at h
          split at h
          next hc =>
            simp only [Option.some.injEq, Prod.mk.injEq] at h
            obtain ⟨rfl, rfl⟩ := h
            exact ⟨[], by rw [hc]; rfl⟩
          next hc =>
          split at h
          next hc2 =>
            match rest with
            | [] => simp at h
            | e :: r2 =>
              simp only at h
              split at h
              next d hd =>
                cases hs : parseStringRest n r2 with
                | none => rw [hs] at h; simp at h
                | some pr =>
                    obtain ⟨s', r'⟩ := pr
                    rw [hs] at h
                    simp only [Option.some.injEq, Prod.mk.injEq] at h
                    obtain ⟨rfl, rfl⟩ := h
                    obtain ⟨p, hp⟩ := ihS r2 s' r' hs
                    exact ⟨c :: e :: p, by rw [hp]; rfl⟩
              next hd =>
                split at h
                next he =>
                  match r2 with
                  | [] => simp at h
                  | [x1] => simp at h
                  | [x1, x2] => simp at h
                  | [x1, x2, x3] => simp at h
                  | x1 :: x2 :: x3 :: x4 :: r6 =>
                    simp only at h
                    split at h
                    next a b c3 d4 ha hb hc5 hd6 =>
                      split at h
                      next => simp at h
                      next hsur =>
                        cases hs : parseStringRest n r6 with
                        | none => rw [hs] at h; simp at h
                        | some pr =>
                            obtain ⟨s', r'⟩ := pr
                            rw [hs] at h
                            simp only [Option.some.injEq, Prod.mk.injEq] at h
                            obtain ⟨rfl, rfl⟩ := h
                            obtain ⟨p, hp⟩ := ihS r6 s' r' hs
                            exact ⟨c :: e :: x1 :: x2 :: x3 :: x4 :: p, by rw [hp]; rfl⟩
                    next => simp at h
                next he => simp at h
          next hc2 =>
          split at h
          next => simp at h
          next hctl =>
            cases hs : parseStringRest n rest with
            | none => rw [hs] at h; simp at h
            | some pr =>
                obtain ⟨s', r'⟩ := pr
                rw [hs] at h
                simp only [Option.some.injEq, Prod.mk.injEq] at h
                obtain ⟨rfl, rfl⟩ := h
                obtain ⟨p, hp⟩ := ihS rest s' r' hs
                exact ⟨c :: p, by rw [hp]; rfl⟩
      -- parseElemsFirst
      · intro l v r h
        rw [parseElemsFirst] at h
        split at h
        next r' heq =>
          simp only [Option.some.injEq, Prod.mk.injEq] at h
          obtain ⟨rfl, rfl⟩ := h
          have hl := hTWdeco l
          rw [heq] at hl
          exact ⟨l.takeWhile jsonWsChar, hl.symm⟩
        next heq =>
          obtain ⟨p, hp⟩ := ihEL [] _ v r h
          have hl := hTWdeco l
          rw [hp] at hl
          exact ⟨l.takeWhile jsonWsChar ++ p,
            hl.symm.trans (by simp [List.append_assoc])⟩
      -- parseElemsLoop
      · intro acc l v r h
        rw [parseElemsLoop] at h
        split at h
        next heq => simp at h
        next v' r' heq =>
          split at h
          next r2 heq2 =>
            obtain ⟨p2, hp2⟩ := ihEL (acc ++ [v']) r2 v r h
            obtain ⟨p1, ch1, hp1, _⟩ := ihV _ v' r' heq
            have hL := hTWdeco l
            have hR := hTWdeco r'
            rw [heq2, hp2] at hR
            rw [hp1, ← hR] at hL
            exact ⟨l.takeWhile jsonWsChar ++ p1 ++
              ch1 :: (r'.takeWhile jsonWsChar ++ ',' :: p2),
              hL.symm.trans (by simp [List.append_assoc])⟩
          next r2 heq2 =>
            simp only [Option.some.injEq, Prod.mk.injEq] at h
            obtain ⟨rfl, rfl⟩ := h
            obtain ⟨p1, ch1, hp1, _⟩ := ihV _ v' r' heq
            have hL := hTWdeco l
            have hR := hTWdeco r'
            rw [heq2] at hR
            rw [hp1, ← hR] at hL
            exact ⟨l.takeWhile jsonWsChar ++ p1 ++ ch1 :: r'.takeWhile jsonWsChar,
              hL.symm.trans (by simp [List.append_assoc])⟩
          next => simp at h
      -- parseMembersFirst
      · intro l v r h
        rw [parseMembersFirst] at h
        split at h
        next r' heq =>
          simp only [Option.some.injEq, Prod.mk.injEq] at h
          obtain ⟨rfl, rfl⟩ := h
          have hl := hTWdeco l
          rw [heq] at hl
          exact ⟨l.takeWhile jsonWsChar, hl.symm⟩
        next heq =>
          obtain ⟨p, hp⟩ := ihML [] _ v r h
          have hl := hTWdeco l
          rw [hp] at hl
          exact ⟨l.takeWhile jsonWsChar ++ p,
            hl.symm.trans (by simp [List.append_assoc])⟩
      -- parseMembersLoop
      · intro acc l v r h
        rw [parseMembersLoop] at h
        split at h
        next r1 heq1 =>
          cases hs : parseStringRest n r1 with
          | none => rw [hs] at h; simp at h
          | some pr =>
            obtain ⟨k, r2⟩ := pr
            rw [hs] at h
            simp only at h
            split at h
            next r3 heq3 =>
              cases hv : parseValue n (r3.dropWhile jsonWsChar) with
              | none => rw [hv] at h; simp at h
              | some pv =>
                obtain ⟨v', r4⟩ := pv
                rw [hv] at h
                simp only at h
                split at h
                next r5 heq5 =>
                  obtain ⟨p2, hp2⟩ := ihML (pyDictInsert acc k v') r5 v r h
                  obtain ⟨pS, hpS⟩ := ihS r1 k r2 hs
                  obtain ⟨p1, ch1, hp1, _⟩ := ihV _ v' r4 hv
                  have hL := hTWdeco l
                  have hR2 := hTWdeco r2
                  have hR3 := hTWdeco r3
                  have hR4 := hTWdeco r4
                  rw [heq5, hp2] at hR4
                  rw [hp1, ← hR4] at hR3
                  rw [heq3, ← hR3] at hR2
                  rw [heq1, hpS, ← hR2] at hL
                  exact ⟨l.takeWhile jsonWsChar ++ '"' :: pS ++
                    '"' :: (r2.takeWhile jsonWsChar ++ ':' ::
                      (r3.takeWhile jsonWsChar ++ p1 ++
                        ch1 :: (r4.takeWhile jsonWsChar ++ ',' :: p2))),
                    hL.symm.trans (by simp [List.append_assoc])⟩
                next r5 heq5 =>
                  simp only [Option.some.injEq, Prod.mk.injEq] at h
                  obtain ⟨rfl, rfl⟩ := h
                  obtain ⟨pS, hpS⟩ := ihS r1 k r2 hs
                  obtain ⟨p1, ch1, hp1, _⟩ := ihV _ v' r4 hv
                  have hL := hTWdeco l
                  have hR2 := hTWdeco r2
                  have hR3 := hTWdeco r3
                  have hR4 := hTWdeco r4
                  rw [heq5] at hR4
                  rw [hp1, ← hR4] at hR3
                  rw [heq3, ← hR3] at hR2
                  rw [heq1, hpS, ← hR2] at hL
                  exact ⟨l.takeWhile jsonWsChar ++ '"' :: pS ++
                    '"' :: (r2.takeWhile jsonWsChar ++ ':' ::
                      (r3.takeWhile jsonWsChar ++ p1 ++
                        ch1 :: r4.takeWhile jsonWsChar)),
                    hL.symm.trans (by simp [List.append_assoc])⟩
                next => simp at h
            next => simp at h
        next => simp at h



theorem parseValue_head_not_ws (fuel : ℕ) (l : Chars) (v : Json) (r : Chars)
    (h : parseValue fuel l = some (v, r)) :
    ∃ c t, l = c :: t ∧ pyWsChar c = false := by
  match fuel, l with
  | 0, _ => simp [parseValue] at h
  | _ + 1, [] => simp [parseValue] at h
  | n + 1, c :: rest =>
    rw [parseValue] at h
    refine ⟨c, rest, rfl, ?_⟩
    split at h
    next hc => subst hc; decide
    next hc =>
    split at h
    next hc2 => subst hc2; decide
    next hc2 =>
    split at h
    next hc3 => subst hc3; decide
    next hc3 =>
    split at h
    next hc4 =>
      have hc4x : c.isDigit = true ∨ c = '-' := by simpa using hc4
      have hct : numTokChar c = true := by
        rcases hc4x with hd | hd
        · simp [numTokChar, hd]
        · subst hd; decide
      exact numTok_not_ws hct
    next hc4 =>
      split at h
      next r' heq => injection heq with h1 h2; subst h1; decide
      next r' heq => injection heq with h1 h2; subst h1; decide
      next r' heq => injection heq with h1 h2; subst h1; decide
      next => simp at h

theorem all_pyWsChar_of_jsonWsChar {w : Chars} (h : w.all jsonWsChar = true) :
    w.all pyWsChar = true := by
  rw [List.all_eq_true] at h ⊢
  exact fun c hc => pyWsChar_of_jsonWsChar (h c hc)

theorem jsonWsChar_eq_false_of_pyWsChar {c : Char} (h : pyWsChar c = false) :
    jsonWsChar c = false := by
  cases hj : jsonWsChar c with
  | false => rfl
  | true => exact absurd (pyWsChar_of_jsonWsChar hj) (by simp [h])

/-! ## Claim theorems -/

/-- Claim C1, counterexample: the item map `{"Qté": "abc"}` has a
present but unparsable quantity (`normalize_number` returns absent),
yet the mapper records the quantity as the integer `0` — `int(
normalize_number(..) or 0)` on line 245 defaults to zero instead of
downgrading the field to absent.  The claim as stated is false. -/
theorem qty_unparsable_maps_to_zero_cex :
    normalize_number (some (.str "abc".data)) = none ∧
    itemGetInt (normalizeItemFields [(qteKey, .str "abc".data)]) qteKey =
      some 0 := by
  decide

set_option maxRecDepth 100000 in
/-- Claim C2: parsing the scenario envelope and normalizing its fields
yields exactly one line item with product name `Savon`, quantity `2`
(a Python `int`), unit price `5.5` (the rational `11/2`), line total
`11.0` and VAT rate `20.0`. -/
theorem end_to_end_savon_scenario :
    ((extract_order_data envC2).toOption.bind jItems).map List.length = some 1 ∧
    (((extract_order_data envC2).toOption.bind jItem0).bind fun i =>
      jGetStr i produitKey) = some "Savon".data ∧
    (((extract_order_data envC2).toOption.bind jItem0).bind fun i =>
      jGetInt i qteKey) = some 2 ∧
    (((extract_order_data envC2).toOption.bind jItem0).bind fun i =>
      jGetNum i puKey) = some (mkRat 11 2) ∧
    (((extract_order_data envC2).toOption.bind jItem0).bind fun i =>
      jGetNum i totKey) = some (11 : ℚ) ∧
    (((extract_order_data envC2).toOption.bind jItem0).bind fun i =>
      jGetNum i tvaKey) = some (20 : ℚ) := by
  decide

/-- Claim C3: the stated vectors of `normalize_number` — `"5 000,0"`
gives `5000.0`, `"1.234,56"` gives `1234.56`, `"20.5"` gives `20.5`,
the empty string gives absent, and Python `None` gives absent.  The
function is total into `Option ℚ` (absence is the only failure mode:
the bare `float` conversion error is absorbed on lines 129-132), so it
never raises. -/
theorem normalize_number_vectors :
    normalize_number (some (.str "5 000,0".data)) = some (5000 : ℚ) ∧
    normalize_number (some (.str "1.234,56".data)) = some (mkRat 123456 100) ∧
    normalize_number (some (.str "20.5".data)) = some (mkRat 205 10) ∧
    normalize_number (some (.str [])) = none ∧
    normalize_number none = none := by
  decide

/-- Claim C5, counterexample: the text `42` contains neither a
brace-delimited nor a bracket-delimited substring, yet the tolerant
parser succeeds (the direct `json.loads` tier already accepts it)
instead of failing with the no-JSON-found error. -/
theorem no_brace_text_can_still_parse_cex :
    ("42".data.all fun c => c ≠ '{' ∧ c ≠ '[') ∧
    (tolerant_parse_json_from_text "42".data).toOption.bind jInt? = some 42 := by
  decide

/-- Claim C6, counterexample: `{"a": "x,}",}` is valid JSON except for
its one trailing comma before the final closing brace (removing just
that comma yields the valid `{"a": "x,}"}` whose string value is
`x,}`), yet the tolerant parser returns the string value `x}` — the
blind `re.sub(r',\s*(\}|])', ...)` repair also deleted the comma
inside the quoted string, altering its content. -/
theorem trailing_comma_repair_alters_string_cex :
    (pyJsonLoads trailingCommaTrap).isNone = true ∧
    (pyJsonLoads trailingCommaTrapRepaired).bind
      (fun j => jGetStr j ['a']) = some "x,\x7d".data ∧
    (tolerant_parse_json_from_text trailingCommaTrap).toOption.bind
      (fun j => jGetStr j ['a']) = some "x\x7d".data ∧
    ("x\x7d".data ≠ "x,\x7d".data) := by
  decide

/-- Claim C1, amended: if the quantity field is present and non-`None`
but its string is unparsable, the mapper records the quantity as the
integer `0` (the `or 0` default of line 245), not as absent; a missing
or `None` quantity is left untouched. -/
theorem qty_amended_zero_default :
    (∀ itm s, pyGetOpt itm qteKey = some (.str s) → normStrNumber s = none →
      itemGetInt (normalizeItemFields itm) qteKey = some 0) ∧
    (∀ itm, pyGetOpt itm qteKey = none →
      pyLookup (normalizeItemFields itm) qteKey = pyLookup itm qteKey) := by
  constructor
  · intro itm s hget hnorm
    have hv : normalize_number (some (.str s)) = none := hnorm
    have hl : pyLookup (normalizeItemFields itm) qteKey = some (.jint 0) := by
      unfold normalizeItemFields
      rw [tvaStep_lookup_ne _ _ (by decide), priceStep_lookup_ne _ _ _ (by decide),
        priceStep_lookup_ne _ _ _ (by decide)]
      simp only [qtyStep, hget, hv, pyLookup_insert_self]
      congr 2
    simp only [itemGetInt, hl]
  · intro itm hget
    unfold normalizeItemFields
    rw [tvaStep_lookup_ne _ _ (by decide), priceStep_lookup_ne _ _ _ (by decide),
      priceStep_lookup_ne _ _ _ (by decide)]
    simp only [qtyStep, hget]

/-- Witness for `qty_amended_zero_default` at the item `{"Qté": "xx"}`
and at the empty item. -/
theorem qty_amended_zero_default_witness :
    itemGetInt (normalizeItemFields [(qteKey, .str "xx".data)]) qteKey = some 0 ∧
    pyLookup (normalizeItemFields ([] : List (Chars × Json))) qteKey =
      pyLookup ([] : List (Chars × Json)) qteKey :=
  ⟨qty_amended_zero_default.1 [(qteKey, .str "xx".data)] "xx".data rfl rfl,
   qty_amended_zero_default.2 [] rfl⟩

/-- Claim C5, amended: an input with no `{` and no `[` that is not
itself valid JSON (after markdown cleanup or raw) makes the tolerant
parser fail with the no-JSON-found error; without the added validity
hypotheses the claim is false, see the counterexample. -/
theorem no_candidate_no_parse_gives_no_json_error (l : Chars)
    (h1 : ∀ c ∈ l, c ≠ '{' ∧ c ≠ '[')
    (h2 : pyJsonLoads (clean_markdown_json l) = none)
    (h3 : pyJsonLoads l = none) :
    tolerant_parse_json_from_text l = .error .noJsonFound := by
  unfold tolerant_parse_json_from_text
  rw [h2, h3]
  have hc : extract_first_json_candidate l = none := by
    unfold extract_first_json_candidate
    rw [scanCandidate_eq_none _ fun c hm => h1 c (mem_clean_markdown_json hm)]
    rfl
  rw [hc]

/-- Witness for `no_candidate_no_parse_gives_no_json_error` at the
text `hello`. -/
theorem no_candidate_no_parse_gives_no_json_error_witness :
    tolerant_parse_json_from_text "hello".data = .error .noJsonFound :=
  no_candidate_no_parse_gives_no_json_error "hello".data (by decide) rfl rfl

/-- Claim C7: a response envelope whose `choices` is the empty sequence
fails with the dedicated empty-response error (the distinguished
`No choices returned by LLM` raise of line 221), not with an uncontrolled
exception kind. -/
theorem empty_choices_raises_empty_response (kvs : List (Chars × Json))
    (h : pyLookup kvs choicesKey = some (.arr [])) :
    parse_llm_response (.obj kvs) = .error .emptyResponse := by
  simp only [parse_llm_response, pyDictGetD, h]
  rfl

/-- Witness for `empty_choices_raises_empty_response`. -/
theorem empty_choices_raises_empty_response_witness :
    parse_llm_response (.obj [(choicesKey, .arr [])]) = .error .emptyResponse :=
  empty_choices_raises_empty_response [(choicesKey, .arr [])] rfl

/-- Claim C9: a parsed object whose `items` field is absent or the
empty array maps to a successful result whose `items` is the empty
array (the `extracted.get("items", [])` default of line 242 plus the
final `extracted["items"] = items` write-back). -/
theorem missing_or_empty_items_yields_empty_items (kvs : List (Chars × Json))
    (h : pyLookup kvs itemsKey = none ∨ pyLookup kvs itemsKey = some (.arr [])) :
    normalizeExtractedData (.obj kvs) =
      .ok (.obj (pyDictInsert kvs itemsKey (.arr []))) ∧
    jItems (.obj (pyDictInsert kvs itemsKey (.arr []))) = some [] := by
  constructor
  · rcases h with h | h <;> simp only [normalizeExtractedData, pyDictGetD, h] <;> rfl
  · simp only [jItems, jGet, pyLookup_insert_self]

/-- Witness for `missing_or_empty_items_yields_empty_items` at the
empty object. -/
theorem missing_or_empty_items_yields_empty_items_witness :
    normalizeExtractedData (.obj []) =
      .ok (.obj (pyDictInsert [] itemsKey (.arr []))) ∧
    jItems (.obj (pyDictInsert [] itemsKey (.arr []))) = some [] :=
  missing_or_empty_items_yields_empty_items [] (.inl rfl)

/-- Claim C10: whenever the model content parses tolerantly to a
top-level JSON array — a shape `extract_first_json_candidate`
explicitly admits — the pipeline fails with the untyped attribute
error of the `extracted.get("items", [])` lookup (a Python list has no
`get`), not with a result and not with one of the documented error
kinds. -/
theorem array_toplevel_hits_untyped_attribute_error (resp : Json) (xs : List Json)
    (h : parse_llm_response resp = .ok (.arr xs)) :
    extract_order_data resp = .error (.attributeError extractedNoGetMsg) := by
  simp only [extract_order_data, h]
  rfl

/-- Witness for `array_toplevel_hits_untyped_attribute_error`: an
envelope whose content is the text `[1, 2]`. -/
theorem array_toplevel_hits_untyped_attribute_error_witness :
    extract_order_data (.obj [(choicesKey, .arr [.obj [(messageKey,
        .obj [(contentKey, .str "[1, 2]".data)])]])]) =
      .error (.attributeError extractedNoGetMsg) :=
  array_toplevel_hits_untyped_attribute_error
    (.obj [(choicesKey, .arr [.obj [(messageKey,
      .obj [(contentKey, .str "[1, 2]".data)])]])])
    [.jint 1, .jint 2] rfl

/-- The quantity and price mutations never touch the `Taux TVA` field. -/
theorem pre_tva_getOpt (itm : List (Chars × Json)) :
    pyGetOpt (priceStep totKey (priceStep puKey (qtyStep itm))) tvaKey =
      pyGetOpt itm tvaKey := by
  apply pyGetOpt_congr
  rw [priceStep_lookup_ne _ _ _ (by decide), priceStep_lookup_ne _ _ _ (by decide),
    qtyStep_lookup_ne _ _ (by decide)]

theorem pyGetOpt_some {kvs : List (Chars × Json)} {k : Chars} {v : Json}
    (h : pyGetOpt kvs k = some v) : pyLookup kvs k = some v := by
  unfold pyGetOpt at h
  cases hl : pyLookup kvs k with
  | none => rw [hl] at h; exact absurd h (by simp)
  | some w => rw [hl] at h; cases w <;> simp_all

/-- Claim C8: for a string VAT field containing `%` (after comma-to-dot
conversion and strip), the mapper parses the percent-stripped remainder
as a plain number; on parse failure the field becomes `null` (absent),
never zero; an already numeric VAT value passes through unchanged; and
the item `{"Qté": "5 000,0", "Taux TVA": "20,00%"}` maps to quantity
`5000` and VAT rate `20.0`. -/
theorem taux_tva_bespoke_handling :
    (∀ itm s q, pyGetOpt itm tvaKey = some (.str s) →
      ((tvaCommaToDot s).any fun c => c = '%') = true →
      tvaPercentVal s = some q →
      itemGetNum (normalizeItemFields itm) tvaKey = some q) ∧
    (∀ itm s, pyGetOpt itm tvaKey = some (.str s) →
      ((tvaCommaToDot s).any fun c => c = '%') = true →
      tvaPercentVal s = none →
      itemHasNull (normalizeItemFields itm) tvaKey = true) ∧
    (∀ itm q, pyGetOpt itm tvaKey = some (.jnum q) →
      itemGetNum (normalizeItemFields itm) tvaKey = some q) ∧
    (itemGetInt (normalizeItemFields [(qteKey, .str "5 000,0".data),
        (tvaKey, .str "20,00%".data)]) qteKey = some 5000 ∧
      itemGetNum (normalizeItemFields [(qteKey, .str "5 000,0".data),
        (tvaKey, .str "20,00%".data)]) tvaKey = some 20) := by
  refine ⟨?_, ?_, ?_, ?_⟩
  · intro itm s q hget hpc hval
    unfold normalizeItemFields
    have h1 := (pre_tva_getOpt itm).trans hget
    simp only [tvaStep, h1, normalizeTauxTva, hpc, if_true, hval, itemGetNum,
      pyLookup_insert_self]
  · intro itm s hget hpc hval
    unfold normalizeItemFields
    have h1 := (pre_tva_getOpt itm).trans hget
    simp only [tvaStep, h1, normalizeTauxTva, hpc, if_true, hval, itemHasNull,
      pyLookup_insert_self]
  · intro itm q hget
    unfold normalizeItemFields
    have h1 := (pre_tva_getOpt itm).trans hget
    simp only [tvaStep, h1, itemGetNum, pyGetOpt_some h1]
  · decide

/-- Witness for `taux_tva_bespoke_handling`: a parsable percent string,
an unparsable percent string, and a numeric passthrough. -/
theorem taux_tva_bespoke_handling_witness :
    itemGetNum (normalizeItemFields [(tvaKey, .str "20%".data)]) tvaKey = some 20 ∧
    itemHasNull (normalizeItemFields [(tvaKey, .str "a%".data)]) tvaKey = true ∧
    itemGetNum (normalizeItemFields [(tvaKey, .jnum 7)]) tvaKey = some 7 :=
  ⟨taux_tva_bespoke_handling.1 [(tvaKey, .str "20%".data)] "20%".data 20
      rfl (by decide) (by decide),
   taux_tva_bespoke_handling.2.1 [(tvaKey, .str "a%".data)] "a%".data
      rfl (by decide) (by decide),
   taux_tva_bespoke_handling.2.2.1 [(tvaKey, .jnum 7)] 7 rfl⟩


theorem subFenceOpen_fence (z : Chars) :
    subFenceOpen (backtick :: backtick :: backtick :: 'j' :: 's' :: 'o' :: 'n' :: '\n' :: z) =
      z.dropWhile pyWsChar := by
  have h1 : pyWsChar '\n' = true := by decide
  have h2 : List.map Char.toLower ['j', 's', 'o', 'n'] = ['j', 's', 'o', 'n'] := by decide
  simp [subFenceOpen, List.dropWhile_cons, h1, h2]

theorem subFenceClose_fence (z : Chars) :
    subFenceClose (z ++ ('\n' :: backtick :: backtick :: backtick :: [])) =
      dropTrailing pyWsChar z := by
  have h1 : (z ++ ('\n' :: backtick :: backtick :: backtick :: [])).reverse
      = backtick :: backtick :: backtick :: '\n' :: z.reverse := by
    simp
  unfold subFenceClose
  rw [h1]
  simp only [List.take_succ_cons, List.take_zero, List.drop_succ_cons, List.drop_zero,
    eq_self_iff_true, if_true, List.reverse_cons, List.reverse_reverse]
  rw [dropTrailing_append_all pyWsChar z ['\n'] (by decide)]

set_option maxRecDepth 100000 in
/-- Claim C4: for every valid JSON text `t`, running the tolerant parser
on `t` wrapped in a ```json markdown code fence returns exactly the
direct `json.loads` value of `t`: the fence-stripping tier recovers `t`
up to surrounding whitespace, which `json.loads` ignores. -/
theorem fenced_json_parses_like_direct (t : Chars) (v : Json)
    (h : pyJsonLoads t = some v) :
    tolerant_parse_json_from_text ("```json\n".data ++ t ++ "\n```".data) = .ok v := by
  have h_open : "```json\n".data =
      backtick :: backtick :: backtick :: 'j' :: 's' :: 'o' :: 'n' :: '\n' :: [] := by decide
  have h_close : "\n```".data = '\n' :: backtick :: backtick :: backtick :: [] := by decide
  have hcore : parseValue ((jsonTrim t).length * 4 + 16) (jsonTrim t) = some (v, []) := by
    simp only [pyJsonLoads] at h
    cases hp : parseValue ((jsonTrim t).length * 4 + 16) (jsonTrim t) with
    | none => rw [hp] at h; simp at h
    | some pr =>
        obtain ⟨v', r'⟩ := pr
        rw [hp] at h
        cases r' with
        | nil =>
            simp only [Option.some.injEq] at h
            rw [h]
        | cons a b => simp at h
  obtain ⟨c0, t0, hm_cons, hc0⟩ := parseValue_head_not_ws _ _ _ _ hcore
  obtain ⟨p0, ch0, hm_last, hch0⟩ := (parse_last_char _).1 _ _ _ hcore
  obtain ⟨w1, w2, hdec, hw1, hw2⟩ := jsonTrim_decomp t
  have hw1p : w1.all pyWsChar = true := all_pyWsChar_of_jsonWsChar hw1
  have hw2p : w2.all pyWsChar = true := all_pyWsChar_of_jsonWsChar hw2
  have hA : pyStrip ("```json\n".data ++ t ++ "\n```".data) =
      "```json\n".data ++ t ++ "\n```".data := by
    have hform : "```json\n".data ++ t ++ "\n```".data =
        backtick :: (backtick :: backtick :: 'j' :: 's' :: 'o' :: 'n' :: '\n' ::
          (t ++ "\n```".data)) := by
      rw [h_open]
      simp
    have hlastA : "```json\n".data ++ t ++ "\n```".data =
        ("```json\n".data ++ t ++ ('\n' :: backtick :: backtick :: [])) ++ [backtick] := by
      rw [h_close]
      simp [List.append_assoc]
    exact pyStrip_eq_self hform hlastA (by decide) (by decide)
  have hfence : "```json\n".data ++ t ++ "\n```".data =
      backtick :: backtick :: backtick :: 'j' :: 's' :: 'o' :: 'n' :: '\n' ::
        (t ++ "\n```".data) := by
    rw [h_open]
    simp
  have hB : subFenceOpen ("```json\n".data ++ t ++ "\n```".data) =
      jsonTrim t ++ (w2 ++ "\n```".data) := by
    rw [hfence, subFenceOpen_fence]
    conv_lhs => rw [hdec]
    rw [List.append_assoc, List.append_assoc,
      all_append_dropWhile pyWsChar w1 _ hw1p, hm_cons, List.cons_append,
      dropWhile_cons_neg _ _ _ hc0, ← List.cons_append, ← hm_cons]
  have hC : pyStrip (jsonTrim t ++ (w2 ++ "\n```".data)) =
      jsonTrim t ++ (w2 ++ "\n```".data) := by
    have hform : jsonTrim t ++ (w2 ++ "\n```".data) =
        c0 :: (t0 ++ (w2 ++ "\n```".data)) := by
      rw [hm_cons]
      simp
    have hlastC : jsonTrim t ++ (w2 ++ "\n```".data) =
        (jsonTrim t ++ (w2 ++ ('\n' :: backtick :: backtick :: []))) ++ [backtick] := by
      rw [h_close]
      simp [List.append_assoc]
    exact pyStrip_eq_self hform hlastC hc0 (by decide)
  have hD : subFenceClose (jsonTrim t ++ (w2 ++ "\n```".data)) = jsonTrim t := by
    have hshape : jsonTrim t ++ (w2 ++ "\n```".data) =
        (jsonTrim t ++ w2) ++ ('\n' :: backtick :: backtick :: backtick :: []) := by
      rw [h_close]
      simp [List.append_assoc]
    rw [hshape, subFenceClose_fence, dropTrailing_append_all pyWsChar _ _ hw2p,
      hm_last, dropTrailing_concat_neg _ _ _ hch0]
  have hE : pyStrip (jsonTrim t) = jsonTrim t :=
    pyStrip_eq_self hm_cons hm_last hc0 hch0
  have hjt : jsonTrim (jsonTrim t) = jsonTrim t := by
    unfold jsonTrim
    exact strip_eq_self jsonWsChar hm_cons hm_last
      (jsonWsChar_eq_false_of_pyWsChar hc0) (jsonWsChar_eq_false_of_pyWsChar hch0)
  have hclean : clean_markdown_json ("```json\n".data ++ t ++ "\n```".data) = jsonTrim t := by
    unfold clean_markdown_json
    rw [hA, hB, hC, hD, hE]
  have hload : pyJsonLoads (jsonTrim t) = some v := by
    simp only [pyJsonLoads, hjt, hcore]
  simp only [tolerant_parse_json_from_text, hclean, hload]

/-- Witness for `fenced_json_parses_like_direct` at the JSON text `[1]`. -/
theorem fenced_json_parses_like_direct_witness :
    tolerant_parse_json_from_text ("```json\n".data ++ "[1]".data ++ "\n```".data) =
      .ok (.arr [.jint 1]) :=
  fenced_json_parses_like_direct "[1]".data (.arr [.jint 1]) rfl

/-! ## Repair-regex equations and class lemmas for claim C6 -/

theorem rtcF_nil (f : ℕ) : remove_trailing_commas_fuel f [] = [] := by
  cases f <;> rfl

theorem rtcF_cons_ne (f : ℕ) (c : Char) (rest : Chars) (hc : c ≠ ',') :
    remove_trailing_commas_fuel (f + 1) (c :: rest) =
      c :: remove_trailing_commas_fuel f rest := by
  rw [remove_trailing_commas_fuel, if_neg hc]

theorem rtcF_comma (f : ℕ) (rest : Chars) :
    remove_trailing_commas_fuel (f + 1) (',' :: rest) =
      (match rest.dropWhile pyWsChar with
      | '}' :: tail => '}' :: remove_trailing_commas_fuel f tail
      | ']' :: tail => ']' :: remove_trailing_commas_fuel f tail
      | _ => ',' :: remove_trailing_commas_fuel f rest) := by
  rw [remove_trailing_commas_fuel, if_pos rfl]

theorem rtcF_comma_brace (f : ℕ) (rest tail : Chars)
    (hd : rest.dropWhile pyWsChar = '}' :: tail) :
    remove_trailing_commas_fuel (f + 1) (',' :: rest) =
      '}' :: remove_trailing_commas_fuel f tail := by
  rw [rtcF_comma, hd]
  rfl

theorem rtcF_comma_bracket (f : ℕ) (rest tail : Chars)
    (hd : rest.dropWhile pyWsChar = ']' :: tail) :
    remove_trailing_commas_fuel (f + 1) (',' :: rest) =
      ']' :: remove_trailing_commas_fuel f tail := by
  rw [rtcF_comma, hd]
  rfl

theorem rtcF_comma_keep (f : ℕ) (rest : Chars) (d : Char) (tail : Chars)
    (hd : rest.dropWhile pyWsChar = d :: tail) (h1 : d ≠ '}') (h2 : d ≠ ']') :
    remove_trailing_commas_fuel (f + 1) (',' :: rest) =
      ',' :: remove_trailing_commas_fuel f rest := by
  rw [rtcF_comma, hd]
  split
  next heq => injection heq with hh _; exact absurd hh h1
  next heq => injection heq with hh _; exact absurd hh h2
  next => rfl

theorem rtcF_comma_keep_nil (f : ℕ) (rest : Chars)
    (hd : rest.dropWhile pyWsChar = []) :
    remove_trailing_commas_fuel (f + 1) (',' :: rest) =
      ',' :: remove_trailing_commas_fuel f rest := by
  rw [rtcF_comma, hd]

theorem length_dropWhile_le (p : Char → Bool) (l : Chars) :
    (l.dropWhile p).length ≤ l.length := by
  induction l with
  | nil => exact le_rfl
  | cons a t ih =>
      rw [List.dropWhile_cons]
      by_cases ha : p a = true
      · rw [if_pos ha]
        simp only [List.length_cons]
        omega
      · rw [if_neg ha]

theorem rtcF_fuel_inv : ∀ f1 f2 (l : Chars), l.length ≤ f1 → l.length ≤ f2 →
    remove_trailing_commas_fuel f1 l = remove_trailing_commas_fuel f2 l := by
  intro f1
  induction f1 with
  | zero =>
      intro f2 l h1 _
      have hl : l = [] := List.eq_nil_of_length_eq_zero (Nat.le_zero.mp h1)
      subst hl
      rw [rtcF_nil, rtcF_nil]
  | succ g ih =>
      intro f2 l h1 h2
      cases l with
      | nil => rw [rtcF_nil, rtcF_nil]
      | cons c rest =>
          cases f2 with
          | zero => simp at h2
          | succ g2 =>
              simp only [List.length_cons] at h1 h2
              by_cases hc : c = ','
              · subst hc
                cases hd : rest.dropWhile pyWsChar with
                | nil =>
                    rw [rtcF_comma_keep_nil g rest hd, rtcF_comma_keep_nil g2 rest hd,
                      ih g2 rest (by omega) (by omega)]
                | cons d tail =>
                    have htl : tail.length + 1 ≤ rest.length := by
                      have hle := length_dropWhile_le pyWsChar rest
                      rw [hd] at hle
                      simpa using hle
                    by_cases hdb : d = '}'
                    · subst hdb
                      rw [rtcF_comma_brace g rest tail hd, rtcF_comma_brace g2 rest tail hd,
                        ih g2 tail (by omega) (by omega)]
                    · by_cases hdk : d = ']'
                      · subst hdk
                        rw [rtcF_comma_bracket g rest tail hd, rtcF_comma_bracket g2 rest tail hd,
                          ih g2 tail (by omega) (by omega)]
                      · rw [rtcF_comma_keep g rest d tail hd hdb hdk,
                          rtcF_comma_keep g2 rest d tail hd hdb hdk,
                          ih g2 rest (by omega) (by omega)]
              · rw [rtcF_cons_ne g c rest hc, rtcF_cons_ne g2 c rest hc,
                  ih g2 rest (by omega) (by omega)]

theorem rtc_nil : remove_trailing_commas [] = [] := rfl

theorem rtc_cons_ne (c : Char) (rest : Chars) (hc : c ≠ ',') :
    remove_trailing_commas (c :: rest) = c :: remove_trailing_commas rest := by
  unfold remove_trailing_commas
  rw [show (c :: rest).length = rest.length + 1 from rfl, rtcF_cons_ne _ _ _ hc]

theorem rtc_comma_brace (rest tail : Chars)
    (hd : rest.dropWhile pyWsChar = '}' :: tail) :
    remove_trailing_commas (',' :: rest) = '}' :: remove_trailing_commas tail := by
  unfold remove_trailing_commas
  rw [show (',' :: rest).length = rest.length + 1 from rfl, rtcF_comma_brace _ _ _ hd]
  have htl : tail.length + 1 ≤ rest.length := by
    have hle := length_dropWhile_le pyWsChar rest
    rw [hd] at hle
    simpa using hle
  rw [rtcF_fuel_inv rest.length tail.length tail (by omega) le_rfl]

theorem rtc_comma_bracket (rest tail : Chars)
    (hd : rest.dropWhile pyWsChar = ']' :: tail) :
    remove_trailing_commas (',' :: rest) = ']' :: remove_trailing_commas tail := by
  unfold remove_trailing_commas
  rw [show (',' :: rest).length = rest.length + 1 from rfl, rtcF_comma_bracket _ _ _ hd]
  have htl : tail.length + 1 ≤ rest.length := by
    have hle := length_dropWhile_le pyWsChar rest
    rw [hd] at hle
    simpa using hle
  rw [rtcF_fuel_inv rest.length tail.length tail (by omega) le_rfl]

theorem rtc_comma_keep (rest : Chars) (d : Char) (tail : Chars)
    (hd : rest.dropWhile pyWsChar = d :: tail) (h1 : d ≠ '}') (h2 : d ≠ ']') :
    remove_trailing_commas (',' :: rest) = ',' :: remove_trailing_commas rest := by
  unfold remove_trailing_commas
  rw [show (',' :: rest).length = rest.length + 1 from rfl,
    rtcF_comma_keep _ _ _ _ hd h1 h2]

theorem rtc_comma_keep_nil (rest : Chars) (hd : rest.dropWhile pyWsChar = []) :
    remove_trailing_commas (',' :: rest) = ',' :: remove_trailing_commas rest := by
  unfold remove_trailing_commas
  rw [show (',' :: rest).length = rest.length + 1 from rfl, rtcF_comma_keep_nil _ _ hd]

theorem rtcF_length_le : ∀ f (l : Chars),
    (remove_trailing_commas_fuel f l).length ≤ l.length := by
  intro f
  induction f with
  | zero => intro l; exact le_rfl
  | succ g ih =>
      intro l
      cases l with
      | nil => rw [rtcF_nil]
      | cons c rest =>
          by_cases hc : c = ','
          · subst hc
            cases hd : rest.dropWhile pyWsChar with
            | nil =>
                rw [rtcF_comma_keep_nil g rest hd]
                have := ih rest
                simp only [List.length_cons]
                omega
            | cons d tail =>
                have htl : tail.length + 1 ≤ rest.length := by
                  have hle := length_dropWhile_le pyWsChar rest
                  rw [hd] at hle
                  simpa using hle
                by_cases hdb : d = '}'
                · subst hdb
                  rw [rtcF_comma_brace g rest tail hd]
                  have := ih tail
                  simp only [List.length_cons]
                  omega
                · by_cases hdk : d = ']'
                  · subst hdk
                    rw [rtcF_comma_bracket g rest tail hd]
                    have := ih tail
                    simp only [List.length_cons]
                    omega
                  · rw [rtcF_comma_keep g rest d tail hd hdb hdk]
                    have := ih rest
                    simp only [List.length_cons]
                    omega
          · rw [rtcF_cons_ne g c rest hc]
            have := ih rest
            simp only [List.length_cons]
            omega

theorem rtc_length_le (l : Chars) :
    (remove_trailing_commas l).length ≤ l.length :=
  rtcF_length_le l.length l

theorem jsonWs_ne_comma {c : Char} (h : jsonWsChar c = true) : c ≠ ',' := by
  intro hc
  subst hc
  exact absurd h (by decide)

theorem numTok_ne_comma {c : Char} (h : numTokChar c = true) : c ≠ ',' := by
  intro hc
  subst hc
  exact absurd h (by decide)

theorem dropWhile_head_false {p : Char → Bool} : ∀ {x : Chars} {c : Char} {y : Chars},
    x.dropWhile p = c :: y → p c = false := by
  intro x
  induction x with
  | nil => intro c y h; simp at h
  | cons a t ih =>
      intro c y h
      rw [List.dropWhile_cons] at h
      by_cases ha : p a = true
      · rw [if_pos ha] at h
        exact ih h
      · rw [if_neg ha] at h
        injection h with h1 _
        rw [← h1]
        exact Bool.eq_false_iff.mpr ha

theorem rtc_front (w z : Chars) (hw : ∀ c ∈ w, c ≠ ',') :
    remove_trailing_commas (w ++ z) = w ++ remove_trailing_commas z := by
  induction w with
  | nil => rfl
  | cons c t ih =>
      rw [List.cons_append, rtc_cons_ne _ _ (hw c (by simp)),
        ih (fun d hd => hw d (by simp [hd])), List.cons_append]

theorem all_append_takeWhile (p : Char → Bool) (w z : Chars) (hw : w.all p = true) :
    (w ++ z).takeWhile p = w ++ z.takeWhile p := by
  induction w with
  | nil => rfl
  | cons c cs ih =>
      simp only [List.all_cons, Bool.and_eq_true] at hw
      simp [List.takeWhile_cons, hw.1, ih hw.2]

theorem rtc_cons_head (c : Char) (y : Chars) :
    ∃ d z, remove_trailing_commas (c :: y) = d :: z ∧ (d = c ∨ d = '}' ∨ d = ']') := by
  by_cases hc : c = ','
  · subst hc
    cases hd : y.dropWhile pyWsChar with
    | nil => exact ⟨',', _, rtc_comma_keep_nil y hd, Or.inl rfl⟩
    | cons d tail =>
        by_cases hdb : d = '}'
        · subst hdb
          exact ⟨'}', _, rtc_comma_brace y tail hd, Or.inr (Or.inl rfl)⟩
        · by_cases hdk : d = ']'
          · subst hdk
            exact ⟨']', _, rtc_comma_bracket y tail hd, Or.inr (Or.inr rfl)⟩
          · exact ⟨',', _, rtc_comma_keep y d tail hd hdb hdk, Or.inl rfl⟩
  · exact ⟨c, _, rtc_cons_ne c y hc, Or.inl rfl⟩

theorem rtc_dropWhile_jsonWs (x : Chars) :
    (remove_trailing_commas x).dropWhile jsonWsChar =
      remove_trailing_commas (x.dropWhile jsonWsChar) := by
  conv_lhs => rw [← List.takeWhile_append_dropWhile (p := jsonWsChar) (l := x)]
  rw [rtc_front _ _ (fun c hc => jsonWs_ne_comma (List.mem_takeWhile_imp hc)),
    all_append_dropWhile jsonWsChar _ _ List.all_takeWhile]
  cases hz : x.dropWhile jsonWsChar with
  | nil => rw [rtc_nil]; rfl
  | cons c y =>
      have hc : jsonWsChar c = false := dropWhile_head_false hz
      obtain ⟨d, z, hdz, hcase⟩ := rtc_cons_head c y
      rw [hdz, dropWhile_cons_neg]
      rcases hcase with rfl | rfl | rfl
      · exact hc
      · decide
      · decide

theorem dropWhile_pyWs_eq_jsonWs {x : Chars} {c : Char} {y : Chars}
    (h : x.dropWhile jsonWsChar = c :: y) (hc : pyWsChar c = false) :
    x.dropWhile pyWsChar = c :: y := by
  conv_lhs => rw [← List.takeWhile_append_dropWhile (p := jsonWsChar) (l := x)]
  rw [h, all_append_dropWhile pyWsChar _ _ (all_pyWsChar_of_jsonWsChar List.all_takeWhile),
    dropWhile_cons_neg _ _ _ hc]

theorem parseValueTc_head {f : ℕ} {l : Chars} {v : Json} {n : ℕ} {r : Chars}
    (h : parseValueTc f l = some (v, n, r)) :
    ∃ c t, l = c :: t ∧ pyWsChar c = false ∧ c ≠ '}' ∧ c ≠ ']' ∧ c ≠ ',' := by
  match f, l with
  | 0, _ => simp [parseValueTc] at h
  | _ + 1, [] => simp [parseValueTc] at h
  | g + 1, c :: rest =>
    rw [parseValueTc] at h
    refine ⟨c, rest, rfl, ?_⟩
    split at h
    next hc => subst hc; exact ⟨by decide, by decide, by decide, by decide⟩
    next hc =>
    split at h
    next hc2 => subst hc2; exact ⟨by decide, by decide, by decide, by decide⟩
    next hc2 =>
    split at h
    next hc3 => subst hc3; exact ⟨by decide, by decide, by decide, by decide⟩
    next hc3 =>
    split at h
    next hc4 =>
      have hc4x : c.isDigit = true ∨ c = '-' := by simpa using hc4
      have hct : numTokChar c = true := by
        rcases hc4x with hdg | hdg
        · simp [numTokChar, hdg]
        · subst hdg; decide
      refine ⟨numTok_not_ws hct, ?_, ?_, numTok_ne_comma hct⟩
      · intro hcc; subst hcc; exact absurd hct (by decide)
      · intro hcc; subst hcc; exact absurd hct (by decide)
    next hc4 =>
      split at h
      next r' heq =>
        injection heq with h1 h2
        subst h1
        exact ⟨by decide, by decide, by decide, by decide⟩
      next r' heq =>
        injection heq with h1 h2
        subst h1
        exact ⟨by decide, by decide, by decide, by decide⟩
      next r' heq =>
        injection heq with h1 h2
        subst h1
        exact ⟨by decide, by decide, by decide, by decide⟩
      next => simp at h

theorem parseValueTc_pos_head {f : ℕ} {l : Chars} {v : Json} {n : ℕ} {r : Chars}
    (h : parseValueTc f l = some (v, n, r)) (hn : n ≠ 0) :
    (∃ t, l = '{' :: t) ∨ ∃ t, l = '[' :: t := by
  match f, l with
  | 0, _ => simp [parseValueTc] at h
  | _ + 1, [] => simp [parseValueTc] at h
  | g + 1, c :: rest =>
    rw [parseValueTc] at h
    split at h
    next hc => subst hc; exact Or.inl ⟨rest, rfl⟩
    next hc =>
    split at h
    next hc2 => subst hc2; exact Or.inr ⟨rest, rfl⟩
    next hc2 =>
    split at h
    next hc3 =>
      exfalso
      cases hs : parseStringRest g rest with
      | none => rw [hs] at h; simp at h
      | some pr =>
          obtain ⟨s, r'⟩ := pr
          rw [hs] at h
          simp only [Option.some.injEq, Prod.mk.injEq] at h
          exact hn h.2.1.symm
    next hc3 =>
    split at h
    next hc4 =>
      exfalso
      cases hp : parseNumber (c :: rest) with
      | none => rw [hp] at h; simp at h
      | some pr =>
          obtain ⟨j, r'⟩ := pr
          rw [hp] at h
          simp only [Option.some.injEq, Prod.mk.injEq] at h
          exact hn h.2.1.symm
    next hc4 =>
      exfalso
      split at h
      next r' heq =>
        simp only [Option.some.injEq, Prod.mk.injEq] at h
        exact hn h.2.1.symm
      next r' heq =>
        simp only [Option.some.injEq, Prod.mk.injEq] at h
        exact hn h.2.1.symm
      next r' heq =>
        simp only [Option.some.injEq, Prod.mk.injEq] at h
        exact hn h.2.1.symm
      next => simp at h

theorem parseTc_last_char (fuel : ℕ) :
    (∀ l v n r, parseValueTc fuel l = some (v, n, r) →
      ∃ p ch, l = p ++ ch :: r ∧ pyWsChar ch = false) ∧
    (∀ l v n r, parseElemsFirstTc fuel l = some (v, n, r) → ∃ p, l = p ++ ']' :: r) ∧
    (∀ acc l v n r, parseElemsLoopTc fuel acc l = some (v, n, r) → ∃ p, l = p ++ ']' :: r) ∧
    (∀ l v n r, parseMembersFirstTc fuel l = some (v, n, r) → ∃ p, l = p ++ '}' :: r) ∧
    (∀ acc l v n r, parseMembersLoopTc fuel acc l = some (v, n, r) → ∃ p, l = p ++ '}' :: r) := by
  induction fuel with
  | zero =>
      refine ⟨fun l v n r h => ?_, fun l v n r h => ?_, fun acc l v n r h => ?_,
        fun l v n r h => ?_, fun acc l v n r h => ?_⟩ <;>
        simp [parseValueTc, parseElemsFirstTc, parseElemsLoopTc,
          parseMembersFirstTc, parseMembersLoopTc] at h
  | succ n0 ih =>
      obtain ⟨ihV, ihEF, ihEL, ihMF, ihML⟩ := ih
      have ihS := (parse_last_char n0).2.1
      have hTWdeco : ∀ (x : Chars), x.takeWhile jsonWsChar ++ x.dropWhile jsonWsChar = x :=
        fun x => List.takeWhile_append_dropWhile jsonWsChar x
      refine ⟨?_, ?_, ?_, ?_, ?_⟩
      -- parseValueTc
      · intro l v n r h
        match l with
        | [] => simp [parseValueTc] at h
        | c :: rest =>
          rw [parseValueTc] at h
          split at h
          next hc =>
            obtain ⟨p, hp⟩ := ihMF rest v n r h
            exact ⟨c :: p, '}', by rw [hp]; rfl, by decide⟩
          next hc =>
          split at h
          next hc2 =>
            obtain ⟨p, hp⟩ := ihEF rest v n r h
            exact ⟨c :: p, ']', by rw [hp]; rfl, by decide⟩
          next hc2 =>
          split at h
          next hc3 =>
            cases hs : parseStringRest n0 rest with
            | none => rw [hs] at h; simp at h
            | some pr =>
                obtain ⟨s', r'⟩ := pr
                rw [hs] at h
                simp only [Option.some.injEq, Prod.mk.injEq] at h
                obtain ⟨rfl, rfl, rfl⟩ := h
                obtain ⟨p, hp⟩ := ihS rest s' r' hs
                exact ⟨c :: p, '"', by rw [hp]; rfl, by decide⟩
          next hc3 =>
          split at h
          next hc4 =>
            simp only [parseNumber] at h
            cases hn2 : parseNumFromTok ((c :: rest).takeWhile numTokChar) with
            | none => rw [hn2] at h; simp at h
            | some j =>
                rw [hn2] at h
                simp only [Option.some.injEq, Prod.mk.injEq] at h
                obtain ⟨rfl, rfl, rfl⟩ := h
                have hctok : numTokChar c = true := by
                  have hc4x : c.isDigit = true ∨ c = '-' := by simpa using hc4
                  rcases hc4x with hd | hd
                  · simp [numTokChar, hd]
                  · subst hd; decide
                have htokform : (c :: rest).takeWhile numTokChar =
                    c :: rest.takeWhile numTokChar := by
                  simp [List.takeWhile_cons, hctok]
                have htokne : (c :: rest).takeWhile numTokChar ≠ [] := by
                  rw [htokform]; simp
                have hlastmem := List.getLast_mem htokne
                have hlasttok : numTokChar (((c :: rest).takeWhile numTokChar).getLast htokne) = true :=
                  List.mem_takeWhile_imp hlastmem
                refine ⟨((c :: rest).takeWhile numTokChar).dropLast,
                  ((c :: rest).takeWhile numTokChar).getLast htokne, ?_, numTok_not_ws hlasttok⟩
                conv_lhs => rw [← List.takeWhile_append_dropWhile (p := numTokChar) (l := c :: rest)]
                conv_lhs => rw [← List.dropLast_append_getLast htokne]
                simp [List.append_assoc]
          next hc4 =>
            split at h
            next r' heq =>
              simp only [Option.some.injEq, Prod.mk.injEq] at h
              obtain ⟨rfl, rfl, rfl⟩ := h
              exact ⟨['n', 'u', 'l'], 'l', by rw [heq]; rfl, by decide⟩
            next r' heq =>
              simp only [Option.some.injEq, Prod.mk.injEq] at h
              obtain ⟨rfl, rfl, rfl⟩ := h
              exact ⟨['t', 'r', 'u'], 'e', by rw [heq]; rfl, by decide⟩
            next r' heq =>
              simp only [Option.some.injEq, Prod.mk.injEq] at h
              obtain ⟨rfl, rfl, rfl⟩ := h
              exact ⟨['f', 'a', 'l', 's'], 'e', by rw [heq]; rfl, by decide⟩
            next => simp at h
      -- parseElemsFirstTc
      · intro l v n r h
        rw [parseElemsFirstTc] at h
        split at h
        next r' heq =>
          simp only [Option.some.injEq, Prod.mk.injEq] at h
          obtain ⟨rfl, rfl, rfl⟩ := h
          have hl := hTWdeco l
          rw [heq] at hl
          exact ⟨l.takeWhile jsonWsChar, hl.symm⟩
        next heq =>
          obtain ⟨p, hp⟩ := ihEL [] _ v n r h
          have hl := hTWdeco l
          rw [hp] at hl
          exact ⟨l.takeWhile jsonWsChar ++ p,
            hl.symm.trans (by simp [List.append_assoc])⟩
      -- parseElemsLoopTc
      · intro acc l v n r h
        rw [parseElemsLoopTc] at h
        split at h
        next heq => simp at h
        next v' n' r' heq =>
          split at h
          next r2 heq2 =>
            cases hrec : parseElemsLoopTc n0 (acc ++ [v']) r2 with
            | none => rw [hrec] at h; simp at h
            | some pr =>
                obtain ⟨w, pr2⟩ := pr
                obtain ⟨n2, r3⟩ := pr2
                rw [hrec] at h
                simp only [Option.some.injEq, Prod.mk.injEq] at h
                obtain ⟨rfl, rfl, rfl⟩ := h
                obtain ⟨p2, hp2⟩ := ihEL (acc ++ [v']) r2 w n2 r3 hrec
                obtain ⟨p1, ch1, hp1, _⟩ := ihV _ v' n' r' heq
                have hL := hTWdeco l
                have hR := hTWdeco r'
                rw [heq2, hp2] at hR
                rw [hp1, ← hR] at hL
                exact ⟨l.takeWhile jsonWsChar ++ p1 ++
                  ch1 :: (r'.takeWhile jsonWsChar ++ ',' :: p2),
                  hL.symm.trans (by simp [List.append_assoc])⟩
          next r2 heq2 =>
            simp only [Option.some.injEq, Prod.mk.injEq] at h
            obtain ⟨rfl, rfl, rfl⟩ := h
            obtain ⟨p1, ch1, hp1, _⟩ := ihV _ v' n' r' heq
            have hL := hTWdeco l
            have hR := hTWdeco r'
            rw [heq2] at hR
            rw [hp1, ← hR] at hL
            exact ⟨l.takeWhile jsonWsChar ++ p1 ++ ch1 :: r'.takeWhile jsonWsChar,
              hL.symm.trans (by simp [List.append_assoc])⟩
          next => simp at h
      -- parseMembersFirstTc
      · intro l v n r h
        rw [parseMembersFirstTc] at h
        split at h
        next r' heq =>
          simp only [Option.some.injEq, Prod.mk.injEq] at h
          obtain ⟨rfl, rfl, rfl⟩ := h
          have hl := hTWdeco l
          rw [heq] at hl
          exact ⟨l.takeWhile jsonWsChar, hl.symm⟩
        next heq =>
          obtain ⟨p, hp⟩ := ihML [] _ v n r h
          have hl := hTWdeco l
          rw [hp] at hl
          exact ⟨l.takeWhile jsonWsChar ++ p,
            hl.symm.trans (by simp [List.append_assoc])⟩
      -- parseMembersLoopTc
      · intro acc l v n r h
        rw [parseMembersLoopTc] at h
        split at h
        next r1 heq1 =>
          cases hs : parseStringRest n0 r1 with
          | none => rw [hs] at h; simp at h
          | some pr =>
            obtain ⟨k, r2⟩ := pr
            rw [hs] at h
            simp only at h
            split at h
            next r3 heq3 =>
              cases hv : parseValueTc n0 (r3.dropWhile jsonWsChar) with
              | none => rw [hv] at h; simp at h
              | some pv =>
                obtain ⟨v', pv2⟩ := pv
                obtain ⟨n', r4⟩ := pv2
                rw [hv] at h
                simp only at h
                split at h
                next r5 heq5 =>
                  split at h
                  next r6 heq6 =>
                    simp only [Option.some.injEq, Prod.mk.injEq] at h
                    obtain ⟨rfl, rfl, rfl⟩ := h
                    obtain ⟨pS, hpS⟩ := ihS r1 k r2 hs
                    obtain ⟨p1, ch1, hp1, _⟩ := ihV _ v' n' r4 hv
                    have hL := hTWdeco l
                    have hR2 := hTWdeco r2
                    have hR3 := hTWdeco r3
                    have hR4 := hTWdeco r4
                    have hR5 := hTWdeco r5
                    rw [heq6] at hR5
                    rw [heq5, ← hR5] at hR4
                    rw [hp1, ← hR4] at hR3
                    rw [heq3, ← hR3] at hR2
                    rw [heq1, hpS, ← hR2] at hL
                    exact ⟨l.takeWhile jsonWsChar ++ '"' :: pS ++
                      '"' :: (r2.takeWhile jsonWsChar ++ ':' ::
                        (r3.takeWhile jsonWsChar ++ p1 ++
                          ch1 :: (r4.takeWhile jsonWsChar ++ ',' ::
                            r5.takeWhile jsonWsChar))),
                      hL.symm.trans (by simp [List.append_assoc])⟩
                  next heq6 =>
                    cases hrec : parseMembersLoopTc n0 (pyDictInsert acc k v') r5 with
                    | none => rw [hrec] at h; simp at h
                    | some pr2 =>
                        obtain ⟨w, pr3⟩ := pr2
                        obtain ⟨n2, r6⟩ := pr3
                        rw [hrec] at h
                        simp only [Option.some.injEq, Prod.mk.injEq] at h
                        obtain ⟨rfl, rfl, rfl⟩ := h
                        obtain ⟨p2, hp2⟩ := ihML (pyDictInsert acc k v') r5 w n2 r6 hrec
                        obtain ⟨pS, hpS⟩ := ihS r1 k r2 hs
                        obtain ⟨p1, ch1, hp1, _⟩ := ihV _ v' n' r4 hv
                        have hL := hTWdeco l
                        have hR2 := hTWdeco r2
                        have hR3 := hTWdeco r3
                        have hR4 := hTWdeco r4
                        rw [heq5, hp2] at hR4
                        rw [hp1, ← hR4] at hR3
                        rw [heq3, ← hR3] at hR2
                        rw [heq1, hpS, ← hR2] at hL
                        exact ⟨l.takeWhile jsonWsChar ++ '"' :: pS ++
                          '"' :: (r2.takeWhile jsonWsChar ++ ':' ::
                            (r3.takeWhile jsonWsChar ++ p1 ++
                              ch1 :: (r4.takeWhile jsonWsChar ++ ',' :: p2))),
                          hL.symm.trans (by simp [List.append_assoc])⟩
                next r5 heq5 =>
                  simp only [Option.some.injEq, Prod.mk.injEq] at h
                  obtain ⟨rfl, rfl, rfl⟩ := h
                  obtain ⟨pS, hpS⟩ := ihS r1 k r2 hs
                  obtain ⟨p1, ch1, hp1, _⟩ := ihV _ v' n' r4 hv
                  have hL := hTWdeco l
                  have hR2 := hTWdeco r2
                  have hR3 := hTWdeco r3
                  have hR4 := hTWdeco r4
                  rw [heq5] at hR4
                  rw [hp1, ← hR4] at hR3
                  rw [heq3, ← hR3] at hR2
                  rw [heq1, hpS, ← hR2] at hL
                  exact ⟨l.takeWhile jsonWsChar ++ '"' :: pS ++
                    '"' :: (r2.takeWhile jsonWsChar ++ ':' ::
                      (r3.takeWhile jsonWsChar ++ p1 ++
                        ch1 :: r4.takeWhile jsonWsChar)),
                    hL.symm.trans (by simp [List.append_assoc])⟩
                next => simp at h
            next => simp at h
        next => simp at h

theorem subFenceOpen_id {l : Chars} {c : Char} {y : Chars}
    (h : l = c :: y) (hc : c ≠ backtick) : subFenceOpen l = l := by
  rw [subFenceOpen, if_neg]
  intro hcon
  rw [h, List.take_succ_cons] at hcon
  injection hcon with h1 _
  exact hc h1

theorem subFenceClose_id {l : Chars} {p : Chars} {ch : Char}
    (h : l = p ++ [ch]) (hch : ch ≠ backtick) : subFenceClose l = l := by
  rw [subFenceClose, if_neg]
  intro hcon
  rw [h, List.reverse_append] at hcon
  simp only [List.reverse_cons, List.reverse_nil, List.nil_append,
    List.singleton_append, List.take_succ_cons] at hcon
  injection hcon with h1 _
  exact hch h1

theorem upToLast_concat (ch : Char) (p : Chars) :
    upToLast ch (p ++ [ch]) = p ++ [ch] := by
  unfold upToLast
  have h1 : (p ++ [ch]).reverse = ch :: p.reverse := by simp
  rw [h1, dropWhile_cons_neg _ _ _ (by simp), ← h1, List.reverse_reverse]

theorem scanCandidate_obj (t0 p : Chars) (hp : t0 = p ++ ['}']) :
    scanCandidate ('{' :: t0) = some ('{' :: t0) := by
  rw [scanCandidate, if_pos]
  · rw [hp, upToLast_concat]
  · exact ⟨rfl, by rw [hp]; simp⟩

theorem scanCandidate_arr (t0 p : Chars) (hp : t0 = p ++ [']']) :
    scanCandidate ('[' :: t0) = some ('[' :: t0) := by
  rw [scanCandidate, if_neg, if_pos]
  · rw [hp, upToLast_concat]
  · exact ⟨rfl, by rw [hp]; simp⟩
  · intro hcon
    exact absurd hcon.1 (by decide)

theorem length_lt_of_dropWhile_cons {p : Char → Bool} {x : Chars} {c : Char} {y : Chars}
    (h : x.dropWhile p = c :: y) : y.length + 1 ≤ x.length := by
  have hle := length_dropWhile_le p x
  rw [h] at hle
  simpa using hle

theorem length_lt_of_decomp {l p : Chars} {ch : Char} {r : Chars}
    (h : l = p ++ ch :: r) : r.length + 1 ≤ l.length := by
  subst h
  simp [List.length_append]

theorem dropWhile_idem (p : Char → Bool) (l : Chars) :
    (l.dropWhile p).dropWhile p = l.dropWhile p := by
  cases h : l.dropWhile p with
  | nil => rfl
  | cons c y => exact dropWhile_cons_neg p c y (dropWhile_head_false h)

theorem pv_step_obj (f : ℕ) (x : Chars) :
    parseValue (f + 1) ('{' :: x) = parseMembersFirst f x := by
  rw [parseValue, if_pos rfl]

theorem pv_step_arr (f : ℕ) (x : Chars) :
    parseValue (f + 1) ('[' :: x) = parseElemsFirst f x := by
  rw [parseValue, if_neg (by decide), if_pos rfl]

theorem pv_step_str (f : ℕ) (x s r : Chars)
    (h : parseStringRest f x = some (s, r)) :
    parseValue (f + 1) ('"' :: x) = some (.str s, r) := by
  rw [parseValue, if_neg (by decide), if_neg (by decide), if_pos rfl, h]

theorem pv_step_num (f : ℕ) (c : Char) (x : Chars)
    (hc : (c.isDigit || c = '-') = true) (j : Json) (r : Chars)
    (h : parseNumber (c :: x) = some (j, r)) :
    parseValue (f + 1) (c :: x) = some (j, r) := by
  have hx : c.isDigit = true ∨ c = '-' := by simpa using hc
  have h1 : c ≠ '{' := by
    rcases hx with hd | hd
    · intro he; subst he; exact absurd hd (by decide)
    · subst hd; decide
  have h2 : c ≠ '[' := by
    rcases hx with hd | hd
    · intro he; subst he; exact absurd hd (by decide)
    · subst hd; decide
  have h3 : c ≠ '"' := by
    rcases hx with hd | hd
    · intro he; subst he; exact absurd hd (by decide)
    · subst hd; decide
  rw [parseValue, if_neg h1, if_neg h2, if_neg h3, if_pos hc, h]

theorem pv_step_null (f : ℕ) (x : Chars) :
    parseValue (f + 1) ('n' :: 'u' :: 'l' :: 'l' :: x) = some (.null, x) := by
  rw [parseValue, if_neg (by decide), if_neg (by decide), if_neg (by decide),
    if_neg (by decide)]
  rfl

theorem pv_step_true (f : ℕ) (x : Chars) :
    parseValue (f + 1) ('t' :: 'r' :: 'u' :: 'e' :: x) = some (.bool true, x) := by
  rw [parseValue, if_neg (by decide), if_neg (by decide), if_neg (by decide),
    if_neg (by decide)]
  rfl

theorem pv_step_false (f : ℕ) (x : Chars) :
    parseValue (f + 1) ('f' :: 'a' :: 'l' :: 's' :: 'e' :: x) = some (.bool false, x) := by
  rw [parseValue, if_neg (by decide), if_neg (by decide), if_neg (by decide),
    if_neg (by decide)]
  rfl

theorem pef_step_close (f : ℕ) (x r : Chars) (h : x.dropWhile jsonWsChar = ']' :: r) :
    parseElemsFirst (f + 1) x = some (.arr [], r) := by
  rw [parseElemsFirst, h]
  rfl

theorem pef_step_loop (f : ℕ) (x : Chars) (c : Char) (y : Chars)
    (h : x.dropWhile jsonWsChar = c :: y) (hc : c ≠ ']') :
    parseElemsFirst (f + 1) x = parseElemsLoop f [] (c :: y) := by
  rw [parseElemsFirst, h]
  split
  next heq => injection heq with hh _; exact absurd hh hc
  next => rfl

theorem pel_step_comma (f : ℕ) (acc : List Json) (x : Chars) (v : Json) (r r2 : Chars)
    (h1 : parseValue f (x.dropWhile jsonWsChar) = some (v, r))
    (h2 : r.dropWhile jsonWsChar = ',' :: r2) :
    parseElemsLoop (f + 1) acc x = parseElemsLoop f (acc ++ [v]) r2 := by
  simp only [parseElemsLoop, h1, h2]

theorem pel_step_close (f : ℕ) (acc : List Json) (x : Chars) (v : Json) (r r2 : Chars)
    (h1 : parseValue f (x.dropWhile jsonWsChar) = some (v, r))
    (h2 : r.dropWhile jsonWsChar = ']' :: r2) :
    parseElemsLoop (f + 1) acc x = some (.arr (acc ++ [v]), r2) := by
  simp only [parseElemsLoop, h1, h2]

theorem pmf_step_close (f : ℕ) (x r : Chars) (h : x.dropWhile jsonWsChar = '}' :: r) :
    parseMembersFirst (f + 1) x = some (.obj [], r) := by
  rw [parseMembersFirst, h]
  rfl

theorem pmf_step_loop (f : ℕ) (x : Chars) (c : Char) (y : Chars)
    (h : x.dropWhile jsonWsChar = c :: y) (hc : c ≠ '}') :
    parseMembersFirst (f + 1) x = parseMembersLoop f [] (c :: y) := by
  rw [parseMembersFirst, h]
  split
  next heq => injection heq with hh _; exact absurd hh hc
  next => rfl

theorem pml_step_next (f : ℕ) (acc : List (Chars × Json)) (x r1 k r2 r3 : Chars)
    (v : Json) (r4 r5 : Chars)
    (h1 : x.dropWhile jsonWsChar = '"' :: r1)
    (h2 : parseStringRest f r1 = some (k, r2))
    (h3 : r2.dropWhile jsonWsChar = ':' :: r3)
    (h4 : parseValue f (r3.dropWhile jsonWsChar) = some (v, r4))
    (h5 : r4.dropWhile jsonWsChar = ',' :: r5) :
    parseMembersLoop (f + 1) acc x = parseMembersLoop f (pyDictInsert acc k v) r5 := by
  simp only [parseMembersLoop, h1, h2, h3, h4, h5]

theorem pml_step_close (f : ℕ) (acc : List (Chars × Json)) (x r1 k r2 r3 : Chars)
    (v : Json) (r4 r5 : Chars)
    (h1 : x.dropWhile jsonWsChar = '"' :: r1)
    (h2 : parseStringRest f r1 = some (k, r2))
    (h3 : r2.dropWhile jsonWsChar = ':' :: r3)
    (h4 : parseValue f (r3.dropWhile jsonWsChar) = some (v, r4))
    (h5 : r4.dropWhile jsonWsChar = '}' :: r5) :
    parseMembersLoop (f + 1) acc x = some (.obj (pyDictInsert acc k v), r5) := by
  simp only [parseMembersLoop, h1, h2, h3, h4, h5]

theorem ps_step_close (f : ℕ) (x : Chars) :
    parseStringRest (f + 1) ('"' :: x) = some ([], x) := by
  rw [parseStringRest_cons, if_pos rfl]

theorem ps_step_plain (f : ℕ) (c : Char) (x s r : Chars)
    (h1 : c ≠ '"') (h2 : c ≠ '\\') (h3 : ¬ c.toNat < 0x20)
    (h : parseStringRest f x = some (s, r)) :
    parseStringRest (f + 1) (c :: x) = some (c :: s, r) := by
  rw [parseStringRest_cons, if_neg h1, if_neg h2, if_neg h3, h]

theorem ps_step_esc (f : ℕ) (e : Char) (d : Char) (x s r : Chars)
    (hd : (if e = '"' then some '"'
      else if e = '\\' then some '\\'
      else if e = '/' then some '/'
      else if e = 'b' then some '\x08'
      else if e = 'f' then some '\x0c'
      else if e = 'n' then some '\n'
      else if e = 'r' then some '\r'
      else if e = 't' then some '\t'
      else none) = some d)
    (h : parseStringRest f x = some (s, r)) :
    parseStringRest (f + 1) ('\\' :: e :: x) = some (d :: s, r) := by
  rw [parseStringRest_cons, if_neg (by decide), if_pos rfl]
  simp only [hd, h]

theorem ps_step_u (f : ℕ) (e1 e2 e3 e4 : Char) (x s r : Chars) (a b c3 d : ℕ)
    (ha : hexVal? e1 = some a) (hb : hexVal? e2 = some b)
    (hc : hexVal? e3 = some c3) (hdd : hexVal? e4 = some d)
    (hsur : ¬(0xD800 ≤ ((a * 16 + b) * 16 + c3) * 16 + d ∧
      ((a * 16 + b) * 16 + c3) * 16 + d < 0xE000))
    (h : parseStringRest f x = some (s, r)) :
    parseStringRest (f + 1) ('\\' :: 'u' :: e1 :: e2 :: e3 :: e4 :: x) =
      some (Char.ofNat (((a * 16 + b) * 16 + c3) * 16 + d) :: s, r) := by
  rw [parseStringRest_cons, if_neg (by decide), if_pos rfl]
  have hu : (if 'u' = '"' then some '"'
      else if 'u' = '\\' then some '\\'
      else if 'u' = '/' then some '/'
      else if 'u' = 'b' then some '\x08'
      else if 'u' = 'f' then some '\x0c'
      else if 'u' = 'n' then some '\n'
      else if 'u' = 'r' then some '\r'
      else if 'u' = 't' then some '\t'
      else none) = (none : Option Char) := by decide
  simp only [hu, ha, hb, hc, hdd, h]
  rw [if_pos trivial, if_neg hsur]

theorem stringRest_ws_run_inv : ∀ (w : Chars) (f : ℕ) (z s r : Chars),
    w.all pyWsChar = true →
    parseStringRest f (w ++ z) = some (s, r) →
    ∃ f2 s2, f2 + w.length = f ∧ s = w ++ s2 ∧ parseStringRest f2 z = some (s2, r) := by
  intro w
  induction w with
  | nil =>
      intro f z s r _ h
      exact ⟨f, s, by simp, by simp, h⟩
  | cons a t ihw =>
      intro f z s r hall h
      simp only [List.all_cons, Bool.and_eq_true] at hall
      obtain ⟨ha, htall⟩ := hall
      cases f with
      | zero => simp [parseStringRest] at h
      | succ g =>
          rw [List.cons_append, parseStringRest_cons] at h
          have ha1 : a ≠ '"' := by intro hx; subst hx; exact absurd ha (by decide)
          have ha2 : a ≠ '\\' := by intro hx; subst hx; exact absurd ha (by decide)
          rw [if_neg ha1, if_neg ha2] at h
          by_cases ha3 : a.toNat < 0x20
          · rw [if_pos ha3] at h
            simp at h
          · rw [if_neg ha3] at h
            cases hs : parseStringRest g (t ++ z) with
            | none => rw [hs] at h; simp at h
            | some pr =>
                obtain ⟨s1, r1⟩ := pr
                rw [hs] at h
                simp only [Option.some.injEq, Prod.mk.injEq] at h
                obtain ⟨rfl, rfl⟩ := h
                obtain ⟨f2, s2, hf2, hs2, hz⟩ := ihw g z s1 r1 htall hs
                refine ⟨f2, s2, ?_, ?_, hz⟩
                · simp only [List.length_cons]
                  omega
                · rw [hs2, List.cons_append]

theorem simTc : ∀ N f, f ≤ N →
    ((∀ l v n r, parseValueTc f l = some (v, n, r) → ∀ f2,
        4 * (remove_trailing_commas l).length + 16 ≤ f2 →
        ∃ w, parseValue f2 (remove_trailing_commas l) =
          some (w, remove_trailing_commas r)) ∧
     (∀ l s r, parseStringRest f l = some (s, r) → ∀ f2,
        4 * (remove_trailing_commas l).length + 16 ≤ f2 →
        ∃ s2, parseStringRest f2 (remove_trailing_commas l) =
          some (s2, remove_trailing_commas r)) ∧
     (∀ l v n r, parseElemsFirstTc f l = some (v, n, r) → ∀ f2,
        4 * (remove_trailing_commas l).length + 19 ≤ f2 →
        ∃ w, parseElemsFirst f2 (remove_trailing_commas l) =
          some (w, remove_trailing_commas r)) ∧
     (∀ acc l v n r, parseElemsLoopTc f acc l = some (v, n, r) → ∀ acc2 f2,
        4 * (remove_trailing_commas l).length + 18 ≤ f2 →
        ∃ w, parseElemsLoop f2 acc2 (remove_trailing_commas l) =
          some (w, remove_trailing_commas r)) ∧
     (∀ l v n r, parseMembersFirstTc f l = some (v, n, r) → ∀ f2,
        4 * (remove_trailing_commas l).length + 19 ≤ f2 →
        ∃ w, parseMembersFirst f2 (remove_trailing_commas l) =
          some (w, remove_trailing_commas r)) ∧
     (∀ acc l v n r, parseMembersLoopTc f acc l = some (v, n, r) → ∀ acc2 f2,
        4 * (remove_trailing_commas l).length + 18 ≤ f2 →
        ∃ w, parseMembersLoop f2 acc2 (remove_trailing_commas l) =
          some (w, remove_trailing_commas r))) := by
  intro N
  induction N with
  | zero =>
      intro f hf
      have hf0 : f = 0 := Nat.le_zero.mp hf
      subst hf0
      refine ⟨fun l v n r h => ?_, fun l s r h => ?_, fun l v n r h => ?_,
        fun acc l v n r h => ?_, fun l v n r h => ?_, fun acc l v n r h => ?_⟩ <;>
        simp [parseValueTc, parseStringRest, parseElemsFirstTc, parseElemsLoopTc,
          parseMembersFirstTc, parseMembersLoopTc] at h
  | succ N ih =>
      intro f hf
      by_cases hfN : f ≤ N
      · exact ih f hfN
      · have hfeq : f = N + 1 := by omega
        subst hfeq
        obtain ⟨SV, SS, SEF, SEL, SMF, SML⟩ := ih N le_rfl
        refine ⟨?_, ?_, ?_, ?_, ?_, ?_⟩
        -- value simulation
        · intro l v n r h f2 hf2
          match l with
          | [] => simp [parseValueTc] at h
          | c :: rest =>
            rw [parseValueTc] at h
            split at h
            next hc =>
              subst hc
              have hrtc : remove_trailing_commas ('{' :: rest) =
                  '{' :: remove_trailing_commas rest := rtc_cons_ne _ _ (by decide)
              rw [hrtc] at hf2
              simp only [List.length_cons] at hf2
              obtain ⟨f3, rfl⟩ : ∃ f3, f2 = f3 + 1 := ⟨f2 - 1, by omega⟩
              obtain ⟨w, hw⟩ := SMF rest v n r h f3 (by omega)
              exact ⟨w, by rw [hrtc, pv_step_obj, hw]⟩
            next hc =>
            split at h
            next hc2 =>
              subst hc2
              have hrtc : remove_trailing_commas ('[' :: rest) =
                  '[' :: remove_trailing_commas rest := rtc_cons_ne _ _ (by decide)
              rw [hrtc] at hf2
              simp only [List.length_cons] at hf2
              obtain ⟨f3, rfl⟩ : ∃ f3, f2 = f3 + 1 := ⟨f2 - 1, by omega⟩
              obtain ⟨w, hw⟩ := SEF rest v n r h f3 (by omega)
              exact ⟨w, by rw [hrtc, pv_step_arr, hw]⟩
            next hc2 =>
            split at h
            next hc3 =>
              subst hc3
              cases hs : parseStringRest N rest with
              | none => rw [hs] at h; simp at h
              | some pr =>
                  obtain ⟨s', r'⟩ := pr
                  rw [hs] at h
                  simp only [Option.some.injEq, Prod.mk.injEq] at h
                  obtain ⟨rfl, rfl, rfl⟩ := h
                  have hrtc : remove_trailing_commas ('"' :: rest) =
                      '"' :: remove_trailing_commas rest := rtc_cons_ne _ _ (by decide)
                  rw [hrtc] at hf2
                  simp only [List.length_cons] at hf2
                  obtain ⟨f3, rfl⟩ : ∃ f3, f2 = f3 + 1 := ⟨f2 - 1, by omega⟩
                  obtain ⟨s2, hs2⟩ := SS rest s' r' hs f3 (by omega)
                  exact ⟨.str s2, by rw [hrtc]; exact pv_step_str f3 _ s2 _ hs2⟩
            next hc3 =>
            split at h
            next hc4 =>
              cases hp : parseNumber (c :: rest) with
              | none => rw [hp] at h; simp at h
              | some pr =>
                  obtain ⟨j, r'⟩ := pr
                  rw [hp] at h
                  simp only [Option.some.injEq, Prod.mk.injEq] at h
                  obtain ⟨rfl, rfl, rfl⟩ := h
                  simp only [parseNumber] at hp
                  cases hn2 : parseNumFromTok ((c :: rest).takeWhile numTokChar) with
                  | none => rw [hn2] at hp; simp at hp
                  | some j2 =>
                      rw [hn2] at hp
                      simp only [Option.some.injEq, Prod.mk.injEq] at hp
                      obtain ⟨hj, hr'⟩ := hp
                      subst hj
                      have hctok : numTokChar c = true := by
                        have hc4x : c.isDigit = true ∨ c = '-' := by simpa using hc4
                        rcases hc4x with hdg | hdg
                        · simp [numTokChar, hdg]
                        · subst hdg; decide
                      have htok : (c :: rest).takeWhile numTokChar =
                          c :: rest.takeWhile numTokChar := by
                        simp [List.takeWhile_cons, hctok]
                      have hdec : c :: rest =
                          (c :: rest).takeWhile numTokChar ++ r' := by
                        conv_lhs => rw [← List.takeWhile_append_dropWhile
                          (p := numTokChar) (l := c :: rest)]
                        rw [hr']
                      have htokall : ∀ d ∈ (c :: rest).takeWhile numTokChar, d ≠ ',' :=
                        fun d hd => numTok_ne_comma (List.mem_takeWhile_imp hd)
                      have hrtc : remove_trailing_commas (c :: rest) =
                          (c :: rest).takeWhile numTokChar ++ remove_trailing_commas r' := by
                        conv_lhs => rw [hdec]
                        exact rtc_front _ _ htokall
                      have hrtcr : ((remove_trailing_commas r').takeWhile numTokChar = []) ∧
                          ((remove_trailing_commas r').dropWhile numTokChar =
                            remove_trailing_commas r') := by
                        cases hr'' : r' with
                        | nil => simp [rtc_nil]
                        | cons c' y =>
                            have hc' : numTokChar c' = false := by
                              apply dropWhile_head_false (p := numTokChar) (x := c :: rest)
                              rw [hr', hr'']
                            obtain ⟨d, z, hdz, hcase⟩ := rtc_cons_head c' y
                            have hd : numTokChar d = false := by
                              rcases hcase with rfl | rfl | rfl
                              · exact hc'
                              · decide
                              · decide
                            rw [hdz]
                            constructor
                            · simp [List.takeWhile_cons, hd]
                            · exact dropWhile_cons_neg _ _ _ hd
                      have hstrict : parseNumber (remove_trailing_commas (c :: rest)) =
                          some (j2, remove_trailing_commas r') := by
                        rw [hrtc]
                        simp only [parseNumber]
                        rw [all_append_takeWhile numTokChar _ _ List.all_takeWhile,
                          hrtcr.1, List.append_nil, hn2,
                          all_append_dropWhile numTokChar _ _ List.all_takeWhile, hrtcr.2]
                      rw [htok, List.cons_append] at hrtc
                      obtain ⟨f3, rfl⟩ : ∃ f3, f2 = f3 + 1 := ⟨f2 - 1, by omega⟩
                      refine ⟨j2, ?_⟩
                      rw [hrtc]
                      apply pv_step_num f3 c _ hc4 j2 _
                      rw [← hrtc]
                      exact hstrict
            next hc4 =>
              split at h
              next r' heq =>
                simp only [Option.some.injEq, Prod.mk.injEq] at h
                obtain ⟨rfl, rfl, rfl⟩ := h
                rw [heq] at hf2 ⊢
                have hrtc : remove_trailing_commas ('n' :: 'u' :: 'l' :: 'l' :: r') =
                    'n' :: 'u' :: 'l' :: 'l' :: remove_trailing_commas r' := by
                  rw [rtc_cons_ne _ _ (by decide), rtc_cons_ne _ _ (by decide),
                    rtc_cons_ne _ _ (by decide), rtc_cons_ne _ _ (by decide)]
                rw [hrtc] at hf2 ⊢
                obtain ⟨f3, rfl⟩ : ∃ f3, f2 = f3 + 1 := ⟨f2 - 1, by omega⟩
                exact ⟨.null, pv_step_null f3 _⟩
              next r' heq =>
                simp only [Option.some.injEq, Prod.mk.injEq] at h
                obtain ⟨rfl, rfl, rfl⟩ := h
                rw [heq] at hf2 ⊢
                have hrtc : remove_trailing_commas ('t' :: 'r' :: 'u' :: 'e' :: r') =
                    't' :: 'r' :: 'u' :: 'e' :: remove_trailing_commas r' := by
                  rw [rtc_cons_ne _ _ (by decide), rtc_cons_ne _ _ (by decide),
                    rtc_cons_ne _ _ (by decide), rtc_cons_ne _ _ (by decide)]
                rw [hrtc] at hf2 ⊢
                obtain ⟨f3, rfl⟩ : ∃ f3, f2 = f3 + 1 := ⟨f2 - 1, by omega⟩
                exact ⟨.bool true, pv_step_true f3 _⟩
              next r' heq =>
                simp only [Option.some.injEq, Prod.mk.injEq] at h
                obtain ⟨rfl, rfl, rfl⟩ := h
                rw [heq] at hf2 ⊢
                have hrtc : remove_trailing_commas ('f' :: 'a' :: 'l' :: 's' :: 'e' :: r') =
                    'f' :: 'a' :: 'l' :: 's' :: 'e' :: remove_trailing_commas r' := by
                  rw [rtc_cons_ne _ _ (by decide), rtc_cons_ne _ _ (by decide),
                    rtc_cons_ne _ _ (by decide), rtc_cons_ne _ _ (by decide),
                    rtc_cons_ne _ _ (by decide)]
                rw [hrtc] at hf2 ⊢
                obtain ⟨f3, rfl⟩ : ∃ f3, f2 = f3 + 1 := ⟨f2 - 1, by omega⟩
                exact ⟨.bool false, pv_step_false f3 _⟩
              next => simp at h
        -- string simulation
        · intro l s r h f2 hf2
          match l with
          | [] => simp [parseStringRest] at h
          | c :: rest =>
            rw [parseStringRest_cons] at h
            split at h
            next hc =>
              subst hc
              simp only [Option.some.injEq, Prod.mk.injEq] at h
              obtain ⟨rfl, rfl⟩ := h
              have hrtc : remove_trailing_commas ('"' :: rest) =
                  '"' :: remove_trailing_commas rest := rtc_cons_ne _ _ (by decide)
              rw [hrtc] at hf2 ⊢
              obtain ⟨f3, rfl⟩ : ∃ f3, f2 = f3 + 1 := ⟨f2 - 1, by omega⟩
              exact ⟨[], ps_step_close f3 _⟩
            next hc =>
            split at h
            next hc2 =>
              subst hc2
              match rest with
              | [] => simp at h
              | e :: r2 =>
                simp only at h
                split at h
                next d hd =>
                  cases hs : parseStringRest N r2 with
                  | none => rw [hs] at h; simp at h
                  | some pr =>
                      obtain ⟨s', r'⟩ := pr
                      rw [hs] at h
                      simp only [Option.some.injEq, Prod.mk.injEq] at h
                      obtain ⟨rfl, rfl⟩ := h
                      have he : e ≠ ',' := by
                        intro hx
                        subst hx
                        simp at hd
                      have hrtc : remove_trailing_commas ('\\' :: e :: r2) =
                          '\\' :: e :: remove_trailing_commas r2 := by
                        rw [rtc_cons_ne _ _ (by decide), rtc_cons_ne _ _ he]
                      rw [hrtc] at hf2 ⊢
                      simp only [List.length_cons] at hf2
                      obtain ⟨f3, rfl⟩ : ∃ f3, f2 = f3 + 1 := ⟨f2 - 1, by omega⟩
                      obtain ⟨s2, hs2⟩ := SS r2 s' r' hs f3 (by omega)
                      exact ⟨d :: s2, ps_step_esc f3 e d _ s2 _ hd hs2⟩
                next hd =>
                  split at h
                  next he =>
                    subst he
                    match r2 with
                    | [] => simp at h
                    | [x1] => simp at h
                    | [x1, x2] => simp at h
                    | [x1, x2, x3] => simp at h
                    | x1 :: x2 :: x3 :: x4 :: r6 =>
                      simp only at h
                      split at h
                      next a b c3 d4 ha hb hc5 hd6 =>
                        split at h
                        next => simp at h
                        next hsur =>
                          cases hs : parseStringRest N r6 with
                          | none => rw [hs] at h; simp at h
                          | some pr =>
                              obtain ⟨s', r'⟩ := pr
                              rw [hs] at h
                              simp only [Option.some.injEq, Prod.mk.injEq] at h
                              obtain ⟨rfl, rfl⟩ := h
                              have hx1 : x1 ≠ ',' := by
                                intro hx; subst hx; simp [hexVal?] at ha
                              have hx2 : x2 ≠ ',' := by
                                intro hx; subst hx; simp [hexVal?] at hb
                              have hx3 : x3 ≠ ',' := by
                                intro hx; subst hx; simp [hexVal?] at hc5
                              have hx4 : x4 ≠ ',' := by
                                intro hx; subst hx; simp [hexVal?] at hd6
                              have hrtc : remove_trailing_commas
                                  ('\\' :: 'u' :: x1 :: x2 :: x3 :: x4 :: r6) =
                                  '\\' :: 'u' :: x1 :: x2 :: x3 :: x4 ::
                                    remove_trailing_commas r6 := by
                                rw [rtc_cons_ne _ _ (by decide), rtc_cons_ne _ _ (by decide),
                                  rtc_cons_ne _ _ hx1, rtc_cons_ne _ _ hx2,
                                  rtc_cons_ne _ _ hx3, rtc_cons_ne _ _ hx4]
                              rw [hrtc] at hf2 ⊢
                              simp only [List.length_cons] at hf2
                              obtain ⟨f3, rfl⟩ : ∃ f3, f2 = f3 + 1 := ⟨f2 - 1, by omega⟩
                              obtain ⟨s2, hs2⟩ := SS r6 s' r' hs f3 (by omega)
                              exact ⟨_, ps_step_u f3 x1 x2 x3 x4 _ s2 _ a b c3 d4
                                ha hb hc5 hd6 hsur hs2⟩
                      next => simp at h
                  next he => simp at h
            next hc2 =>
            split at h
            next => simp at h
            next hctl =>
              cases hs : parseStringRest N rest with
              | none => rw [hs] at h; simp at h
              | some pr =>
                  obtain ⟨s', r'⟩ := pr
                  rw [hs] at h
                  simp only [Option.some.injEq, Prod.mk.injEq] at h
                  obtain ⟨rfl, rfl⟩ := h
                  by_cases hcc : c = ','
                  · subst hcc
                    cases hdw : rest.dropWhile pyWsChar with
                    | nil =>
                        have hrtc : remove_trailing_commas (',' :: rest) =
                            ',' :: remove_trailing_commas rest :=
                          rtc_comma_keep_nil rest hdw
                        rw [hrtc] at hf2 ⊢
                        simp only [List.length_cons] at hf2
                        obtain ⟨f3, rfl⟩ : ∃ f3, f2 = f3 + 1 := ⟨f2 - 1, by omega⟩
                        obtain ⟨s2, hs2⟩ := SS rest s' r' hs f3 (by omega)
                        exact ⟨',' :: s2, ps_step_plain f3 ',' _ s2 _ (by decide)
                          (by decide) (by decide) hs2⟩
                    | cons d tail =>
                        by_cases hdb : d = '}'
                        · subst hdb
                          have hwdec : rest = rest.takeWhile pyWsChar ++ '}' :: tail := by
                            conv_lhs => rw [← List.takeWhile_append_dropWhile
                              (p := pyWsChar) (l := rest)]
                            rw [hdw]
                          rw [hwdec] at hs
                          obtain ⟨f4, s4, hf4, _, hz⟩ :=
                            stringRest_ws_run_inv _ N _ _ _ List.all_takeWhile hs
                          obtain ⟨g4, rfl⟩ : ∃ g4, f4 = g4 + 1 := by
                            cases f4 with
                            | zero => simp [parseStringRest] at hz
                            | succ g4 => exact ⟨g4, rfl⟩
                          rw [parseStringRest_cons, if_neg (by decide), if_neg (by decide),
                            if_neg (by decide)] at hz
                          cases ht : parseStringRest g4 tail with
                          | none => rw [ht] at hz; simp at hz
                          | some pr2 =>
                              obtain ⟨s5, r5⟩ := pr2
                              rw [ht] at hz
                              simp only [Option.some.injEq, Prod.mk.injEq] at hz
                              obtain ⟨rfl, rfl⟩ := hz
                              have hrtc : remove_trailing_commas (',' :: rest) =
                                  '}' :: remove_trailing_commas tail :=
                                rtc_comma_brace rest tail hdw
                              rw [hrtc] at hf2 ⊢
                              simp only [List.length_cons] at hf2
                              obtain ⟨f3, rfl⟩ : ∃ f3, f2 = f3 + 1 := ⟨f2 - 1, by omega⟩
                              obtain ⟨s2, hs2⟩ := (ih g4 (by omega)).2.1 tail s5 r5 ht f3 (by omega)
                              exact ⟨'}' :: s2, ps_step_plain f3 '}' _ s2 _ (by decide)
                                (by decide) (by decide) hs2⟩
                        · by_cases hdk : d = ']'
                          · subst hdk
                            have hwdec : rest = rest.takeWhile pyWsChar ++ ']' :: tail := by
                              conv_lhs => rw [← List.takeWhile_append_dropWhile
                                (p := pyWsChar) (l := rest)]
                              rw [hdw]
                            rw [hwdec] at hs
                            obtain ⟨f4, s4, hf4, _, hz⟩ :=
                              stringRest_ws_run_inv _ N _ _ _ List.all_takeWhile hs
                            obtain ⟨g4, rfl⟩ : ∃ g4, f4 = g4 + 1 := by
                              cases f4 with
                              | zero => simp [parseStringRest] at hz
                              | succ g4 => exact ⟨g4, rfl⟩
                            rw [parseStringRest_cons, if_neg (by decide), if_neg (by decide),
                              if_neg (by decide)] at hz
                            cases ht : parseStringRest g4 tail with
                            | none => rw [ht] at hz; simp at hz
                            | some pr2 =>
                                obtain ⟨s5, r5⟩ := pr2
                                rw [ht] at hz
                                simp only [Option.some.injEq, Prod.mk.injEq] at hz
                                obtain ⟨rfl, rfl⟩ := hz
                                have hrtc : remove_trailing_commas (',' :: rest) =
                                    ']' :: remove_trailing_commas tail :=
                                  rtc_comma_bracket rest tail hdw
                                rw [hrtc] at hf2 ⊢
                                simp only [List.length_cons] at hf2
                                obtain ⟨f3, rfl⟩ : ∃ f3, f2 = f3 + 1 := ⟨f2 - 1, by omega⟩
                                obtain ⟨s2, hs2⟩ := (ih g4 (by omega)).2.1 tail s5 r5 ht f3 (by omega)
                                exact ⟨']' :: s2, ps_step_plain f3 ']' _ s2 _ (by decide)
                                  (by decide) (by decide) hs2⟩
                          · have hrtc : remove_trailing_commas (',' :: rest) =
                                ',' :: remove_trailing_commas rest :=
                              rtc_comma_keep rest d tail hdw hdb hdk
                            rw [hrtc] at hf2 ⊢
                            simp only [List.length_cons] at hf2
                            obtain ⟨f3, rfl⟩ : ∃ f3, f2 = f3 + 1 := ⟨f2 - 1, by omega⟩
                            obtain ⟨s2, hs2⟩ := SS rest s' r' hs f3 (by omega)
                            exact ⟨',' :: s2, ps_step_plain f3 ',' _ s2 _ (by decide)
                              (by decide) (by decide) hs2⟩
                  · have hrtc : remove_trailing_commas (c :: rest) =
                        c :: remove_trailing_commas rest := rtc_cons_ne _ _ hcc
                    rw [hrtc] at hf2 ⊢
                    simp only [List.length_cons] at hf2
                    obtain ⟨f3, rfl⟩ : ∃ f3, f2 = f3 + 1 := ⟨f2 - 1, by omega⟩
                    obtain ⟨s2, hs2⟩ := SS rest s' r' hs f3 (by omega)
                    exact ⟨c :: s2, ps_step_plain f3 c _ s2 _ hc hc2 hctl hs2⟩
        -- elems-first simulation
        · intro l v n r h f2 hf2
          rw [parseElemsFirstTc] at h
          split at h
          next r' heq =>
            simp only [Option.some.injEq, Prod.mk.injEq] at h
            obtain ⟨rfl, rfl, rfl⟩ := h
            have hdw : (remove_trailing_commas l).dropWhile jsonWsChar =
                ']' :: remove_trailing_commas r' := by
              rw [rtc_dropWhile_jsonWs, heq, rtc_cons_ne _ _ (by decide)]
            obtain ⟨f3, rfl⟩ : ∃ f3, f2 = f3 + 1 := ⟨f2 - 1, by omega⟩
            exact ⟨.arr [], pef_step_close f3 _ _ hdw⟩
          next heqc =>
            cases N with
            | zero => simp [parseElemsLoopTc] at h
            | succ g =>
                have h' := h
                rw [parseElemsLoopTc] at h'
                split at h'
                next heqV => simp at h'
                next v1 n1 r1 heqV =>
                  rw [dropWhile_idem] at heqV
                  obtain ⟨c1, y1, hcons, hws1, hneB, hneK, hneC⟩ := parseValueTc_head heqV
                  have hdw : (remove_trailing_commas l).dropWhile jsonWsChar =
                      remove_trailing_commas (l.dropWhile jsonWsChar) :=
                    rtc_dropWhile_jsonWs l
                  have hlen1 : (remove_trailing_commas (l.dropWhile jsonWsChar)).length ≤
                      (remove_trailing_commas l).length := by
                    rw [← hdw]
                    exact length_dropWhile_le _ _
                  obtain ⟨f3, rfl⟩ : ∃ f3, f2 = f3 + 1 := ⟨f2 - 1, by omega⟩
                  obtain ⟨w, hw⟩ := SEL [] (l.dropWhile jsonWsChar) v n r h [] f3 (by omega)
                  refine ⟨w, ?_⟩
                  have hrtc1 : remove_trailing_commas (l.dropWhile jsonWsChar) =
                      c1 :: remove_trailing_commas y1 := by
                    rw [hcons, rtc_cons_ne _ _ hneC]
                  rw [pef_step_loop f3 _ c1 (remove_trailing_commas y1)
                    (by rw [hdw, hrtc1]) hneK, ← hrtc1, hw]
        -- elems-loop simulation
        · intro acc l v n r h acc2 f2 hf2
          rw [parseElemsLoopTc] at h
          split at h
          next heqV => simp at h
          next v1 n1 r1 heqV =>
            split at h
            next r2 heq2 =>
              cases hrec : parseElemsLoopTc N (acc ++ [v1]) r2 with
              | none => rw [hrec] at h; simp at h
              | some pr =>
                  obtain ⟨w0, pr2⟩ := pr
                  obtain ⟨n2, r3⟩ := pr2
                  rw [hrec] at h
                  simp only [Option.some.injEq, Prod.mk.injEq] at h
                  obtain ⟨rfl, rfl, rfl⟩ := h
                  have hdwl : (remove_trailing_commas l).dropWhile jsonWsChar =
                      remove_trailing_commas (l.dropWhile jsonWsChar) :=
                    rtc_dropWhile_jsonWs l
                  have hlen0 : (remove_trailing_commas (l.dropWhile jsonWsChar)).length ≤
                      (remove_trailing_commas l).length := by
                    rw [← hdwl]
                    exact length_dropWhile_le _ _
                  obtain ⟨f3, rfl⟩ : ∃ f3, f2 = f3 + 1 := ⟨f2 - 1, by omega⟩
                  obtain ⟨w1, hw1⟩ := SV (l.dropWhile jsonWsChar) v1 n1 r1 heqV f3 (by omega)
                  cases N with
                  | zero => simp [parseElemsLoopTc] at hrec
                  | succ g =>
                      have hrec' := hrec
                      rw [parseElemsLoopTc] at hrec'
                      split at hrec'
                      next heqV2 => simp at hrec'
                      next v3 n3 r3' heqV2 =>
                        obtain ⟨c2, y2, hcons2, hws2, hneB2, hneK2, hneC2⟩ :=
                          parseValueTc_head heqV2
                        have hpy2 : r2.dropWhile pyWsChar = c2 :: y2 :=
                          dropWhile_pyWs_eq_jsonWs hcons2 hws2
                        have hrtcSep : remove_trailing_commas (',' :: r2) =
                            ',' :: remove_trailing_commas r2 :=
                          rtc_comma_keep r2 c2 y2 hpy2 hneB2 hneK2
                        have hdwr1 : (remove_trailing_commas r1).dropWhile jsonWsChar =
                            ',' :: remove_trailing_commas r2 := by
                          rw [rtc_dropWhile_jsonWs, heq2, hrtcSep]
                        obtain ⟨p1, ch1, hdec1, _⟩ := (parse_last_char f3).1 _ _ _ hw1
                        have hlen1 : (remove_trailing_commas r1).length + 1 ≤
                            (remove_trailing_commas (l.dropWhile jsonWsChar)).length :=
                          length_lt_of_decomp hdec1
                        have hlen2 : (remove_trailing_commas r2).length + 1 ≤
                            (remove_trailing_commas r1).length :=
                          length_lt_of_dropWhile_cons hdwr1
                        obtain ⟨w, hw⟩ := SEL (acc ++ [v1]) r2 w0 n2 r3 hrec
                          (acc2 ++ [w1]) f3 (by omega)
                        refine ⟨w, ?_⟩
                        rw [pel_step_comma f3 acc2 _ w1 (remove_trailing_commas r1)
                          (remove_trailing_commas r2) (by rw [hdwl]; exact hw1) hdwr1, hw]
            next r2 heq2 =>
              simp only [Option.some.injEq, Prod.mk.injEq] at h
              obtain ⟨rfl, rfl, rfl⟩ := h
              have hdwl : (remove_trailing_commas l).dropWhile jsonWsChar =
                  remove_trailing_commas (l.dropWhile jsonWsChar) :=
                rtc_dropWhile_jsonWs l
              have hlen0 : (remove_trailing_commas (l.dropWhile jsonWsChar)).length ≤
                  (remove_trailing_commas l).length := by
                rw [← hdwl]
                exact length_dropWhile_le _ _
              obtain ⟨f3, rfl⟩ : ∃ f3, f2 = f3 + 1 := ⟨f2 - 1, by omega⟩
              obtain ⟨w1, hw1⟩ := SV (l.dropWhile jsonWsChar) v1 n1 r1 heqV f3 (by omega)
              have hdwr1 : (remove_trailing_commas r1).dropWhile jsonWsChar =
                  ']' :: remove_trailing_commas r2 := by
                rw [rtc_dropWhile_jsonWs, heq2, rtc_cons_ne _ _ (by decide)]
              exact ⟨.arr (acc2 ++ [w1]), by
                rw [pel_step_close f3 acc2 _ w1 (remove_trailing_commas r1)
                  (remove_trailing_commas r2) (by rw [hdwl]; exact hw1) hdwr1]⟩
            next => simp at h
        -- members-first simulation
        · intro l v n r h f2 hf2
          rw [parseMembersFirstTc] at h
          split at h
          next r' heq =>
            simp only [Option.some.injEq, Prod.mk.injEq] at h
            obtain ⟨rfl, rfl, rfl⟩ := h
            have hdw : (remove_trailing_commas l).dropWhile jsonWsChar =
                '}' :: remove_trailing_commas r' := by
              rw [rtc_dropWhile_jsonWs, heq, rtc_cons_ne _ _ (by decide)]
            obtain ⟨f3, rfl⟩ : ∃ f3, f2 = f3 + 1 := ⟨f2 - 1, by omega⟩
            exact ⟨.obj [], pmf_step_close f3 _ _ hdw⟩
          next heqc =>
            cases N with
            | zero => simp [parseMembersLoopTc] at h
            | succ g =>
                have h' := h
                rw [parseMembersLoopTc] at h'
                split at h'
                next r1 heqK =>
                  rw [dropWhile_idem] at heqK
                  have hdw : (remove_trailing_commas l).dropWhile jsonWsChar =
                      remove_trailing_commas (l.dropWhile jsonWsChar) :=
                    rtc_dropWhile_jsonWs l
                  have hlen1 : (remove_trailing_commas (l.dropWhile jsonWsChar)).length ≤
                      (remove_trailing_commas l).length := by
                    rw [← hdw]
                    exact length_dropWhile_le _ _
                  obtain ⟨f3, rfl⟩ : ∃ f3, f2 = f3 + 1 := ⟨f2 - 1, by omega⟩
                  obtain ⟨w, hw⟩ := SML [] (l.dropWhile jsonWsChar) v n r h [] f3 (by omega)
                  refine ⟨w, ?_⟩
                  have hrtc1 : remove_trailing_commas (l.dropWhile jsonWsChar) =
                      '"' :: remove_trailing_commas r1 := by
                    rw [heqK, rtc_cons_ne _ _ (by decide)]
                  rw [pmf_step_loop f3 _ '"' (remove_trailing_commas r1)
                    (by rw [hdw, hrtc1]) (by decide), ← hrtc1, hw]
                next heqK => simp at h'
        -- members-loop simulation
        · intro acc l v n r h acc2 f2 hf2
          rw [parseMembersLoopTc] at h
          split at h
          next r1 heq1 =>
            cases hsK : parseStringRest N r1 with
            | none => rw [hsK] at h; simp at h
            | some pr =>
              obtain ⟨k, r2⟩ := pr
              rw [hsK] at h
              simp only at h
              split at h
              next r3 heq3 =>
                cases hv : parseValueTc N (r3.dropWhile jsonWsChar) with
                | none => rw [hv] at h; simp at h
                | some pv =>
                  obtain ⟨v1, pv2⟩ := pv
                  obtain ⟨n1, r4⟩ := pv2
                  rw [hv] at h
                  simp only at h
                  have hdwl : (remove_trailing_commas l).dropWhile jsonWsChar =
                      remove_trailing_commas (l.dropWhile jsonWsChar) :=
                    rtc_dropWhile_jsonWs l
                  have hrtck : remove_trailing_commas (l.dropWhile jsonWsChar) =
                      '"' :: remove_trailing_commas r1 := by
                    rw [heq1, rtc_cons_ne _ _ (by decide)]
                  have hlen1 : (remove_trailing_commas r1).length + 1 ≤
                      (remove_trailing_commas l).length := by
                    have hx := length_dropWhile_le jsonWsChar (remove_trailing_commas l)
                    rw [hdwl, hrtck] at hx
                    simpa using hx
                  split at h
                  next r5 heq5 =>
                    split at h
                    next r6 heq6 =>
                      simp only [Option.some.injEq, Prod.mk.injEq] at h
                      obtain ⟨rfl, rfl, rfl⟩ := h
                      obtain ⟨f3, rfl⟩ : ∃ f3, f2 = f3 + 1 := ⟨f2 - 1, by omega⟩
                      obtain ⟨k2, hk2⟩ := SS r1 k r2 hsK f3 (by omega)
                      obtain ⟨pk, hdecK⟩ := (parse_last_char f3).2.1 _ _ _ hk2
                      have hlen2 : (remove_trailing_commas r2).length + 1 ≤
                          (remove_trailing_commas r1).length := length_lt_of_decomp hdecK
                      have hdw3 : (remove_trailing_commas r2).dropWhile jsonWsChar =
                          ':' :: remove_trailing_commas r3 := by
                        rw [rtc_dropWhile_jsonWs, heq3, rtc_cons_ne _ _ (by decide)]
                      have hlen3 : (remove_trailing_commas r3).length + 1 ≤
                          (remove_trailing_commas r2).length :=
                        length_lt_of_dropWhile_cons hdw3
                      have hdwr3 : (remove_trailing_commas r3).dropWhile jsonWsChar =
                          remove_trailing_commas (r3.dropWhile jsonWsChar) :=
                        rtc_dropWhile_jsonWs r3
                      have hlen3b : (remove_trailing_commas (r3.dropWhile jsonWsChar)).length ≤
                          (remove_trailing_commas r3).length := by
                        rw [← hdwr3]
                        exact length_dropWhile_le _ _
                      obtain ⟨w1, hw1⟩ := SV (r3.dropWhile jsonWsChar) v1 n1 r4 hv f3 (by omega)
                      have hpy5 : r5.dropWhile pyWsChar = '}' :: r6 :=
                        dropWhile_pyWs_eq_jsonWs heq6 (by decide)
                      have hdw5 : (remove_trailing_commas r4).dropWhile jsonWsChar =
                          '}' :: remove_trailing_commas r6 := by
                        rw [rtc_dropWhile_jsonWs, heq5, rtc_comma_brace r5 r6 hpy5]
                      exact ⟨.obj (pyDictInsert acc2 k2 w1), by
                        rw [pml_step_close f3 acc2 _ (remove_trailing_commas r1) k2
                          (remove_trailing_commas r2) (remove_trailing_commas r3) w1
                          (remove_trailing_commas r4) (remove_trailing_commas r6)
                          (by rw [hdwl, hrtck]) hk2 hdw3
                          (by rw [hdwr3]; exact hw1) hdw5]⟩
                    next heq6 =>
                      cases hrec : parseMembersLoopTc N (pyDictInsert acc k v1) r5 with
                      | none => rw [hrec] at h; simp at h
                      | some pr3 =>
                          obtain ⟨w0, pr4⟩ := pr3
                          obtain ⟨n2, r6⟩ := pr4
                          rw [hrec] at h
                          simp only [Option.some.injEq, Prod.mk.injEq] at h
                          obtain ⟨rfl, rfl, rfl⟩ := h
                          obtain ⟨f3, rfl⟩ : ∃ f3, f2 = f3 + 1 := ⟨f2 - 1, by omega⟩
                          obtain ⟨k2, hk2⟩ := SS r1 k r2 hsK f3 (by omega)
                          obtain ⟨pk, hdecK⟩ := (parse_last_char f3).2.1 _ _ _ hk2
                          have hlen2 : (remove_trailing_commas r2).length + 1 ≤
                              (remove_trailing_commas r1).length := length_lt_of_decomp hdecK
                          have hdw3 : (remove_trailing_commas r2).dropWhile jsonWsChar =
                              ':' :: remove_trailing_commas r3 := by
                            rw [rtc_dropWhile_jsonWs, heq3, rtc_cons_ne _ _ (by decide)]
                          have hlen3 : (remove_trailing_commas r3).length + 1 ≤
                              (remove_trailing_commas r2).length :=
                            length_lt_of_dropWhile_cons hdw3
                          have hdwr3 : (remove_trailing_commas r3).dropWhile jsonWsChar =
                              remove_trailing_commas (r3.dropWhile jsonWsChar) :=
                            rtc_dropWhile_jsonWs r3
                          have hlen3b : (remove_trailing_commas
                              (r3.dropWhile jsonWsChar)).length ≤
                              (remove_trailing_commas r3).length := by
                            rw [← hdwr3]
                            exact length_dropWhile_le _ _
                          obtain ⟨w1, hw1⟩ := SV (r3.dropWhile jsonWsChar) v1 n1 r4 hv f3
                            (by omega)
                          cases N with
                          | zero => simp [parseMembersLoopTc] at hrec
                          | succ g =>
                              have hrec' := hrec
                              rw [parseMembersLoopTc] at hrec'
                              split at hrec'
                              next r1' heqK2 =>
                                have hpy5 : r5.dropWhile pyWsChar = '"' :: r1' :=
                                  dropWhile_pyWs_eq_jsonWs heqK2 (by decide)
                                have hrtcSep : remove_trailing_commas (',' :: r5) =
                                    ',' :: remove_trailing_commas r5 :=
                                  rtc_comma_keep r5 '"' r1' hpy5 (by decide) (by decide)
                                have hdw5 : (remove_trailing_commas r4).dropWhile jsonWsChar =
                                    ',' :: remove_trailing_commas r5 := by
                                  rw [rtc_dropWhile_jsonWs, heq5, hrtcSep]
                                obtain ⟨p1, ch1, hdec1, _⟩ := (parse_last_char f3).1 _ _ _ hw1
                                have hlen4 : (remove_trailing_commas r4).length + 1 ≤
                                    (remove_trailing_commas (r3.dropWhile jsonWsChar)).length :=
                                  length_lt_of_decomp hdec1
                                have hlen5 : (remove_trailing_commas r5).length + 1 ≤
                                    (remove_trailing_commas r4).length :=
                                  length_lt_of_dropWhile_cons hdw5
                                obtain ⟨w, hw⟩ := SML (pyDictInsert acc k v1) r5 w0 n2 r6 hrec
                                  (pyDictInsert acc2 k2 w1) f3 (by omega)
                                refine ⟨w, ?_⟩
                                rw [pml_step_next f3 acc2 _ (remove_trailing_commas r1) k2
                                  (remove_trailing_commas r2) (remove_trailing_commas r3) w1
                                  (remove_trailing_commas r4) (remove_trailing_commas r5)
                                  (by rw [hdwl, hrtck]) hk2 hdw3
                                  (by rw [hdwr3]; exact hw1) hdw5, hw]
                              next heqK2 => simp at hrec'
                  next r5 heq5 =>
                    simp only [Option.some.injEq, Prod.mk.injEq] at h
                    obtain ⟨rfl, rfl, rfl⟩ := h
                    obtain ⟨f3, rfl⟩ : ∃ f3, f2 = f3 + 1 := ⟨f2 - 1, by omega⟩
                    obtain ⟨k2, hk2⟩ := SS r1 k r2 hsK f3 (by omega)
                    obtain ⟨pk, hdecK⟩ := (parse_last_char f3).2.1 _ _ _ hk2
                    have hlen2 : (remove_trailing_commas r2).length + 1 ≤
                        (remove_trailing_commas r1).length := length_lt_of_decomp hdecK
                    have hdw3 : (remove_trailing_commas r2).dropWhile jsonWsChar =
                        ':' :: remove_trailing_commas r3 := by
                      rw [rtc_dropWhile_jsonWs, heq3, rtc_cons_ne _ _ (by decide)]
                    have hlen3 : (remove_trailing_commas r3).length + 1 ≤
                        (remove_trailing_commas r2).length :=
                      length_lt_of_dropWhile_cons hdw3
                    have hdwr3 : (remove_trailing_commas r3).dropWhile jsonWsChar =
                        remove_trailing_commas (r3.dropWhile jsonWsChar) :=
                      rtc_dropWhile_jsonWs r3
                    have hlen3b : (remove_trailing_commas (r3.dropWhile jsonWsChar)).length ≤
                        (remove_trailing_commas r3).length := by
                      rw [← hdwr3]
                      exact length_dropWhile_le _ _
                    obtain ⟨w1, hw1⟩ := SV (r3.dropWhile jsonWsChar) v1 n1 r4 hv f3 (by omega)
                    have hdw5 : (remove_trailing_commas r4).dropWhile jsonWsChar =
                        '}' :: remove_trailing_commas r5 := by
                      rw [rtc_dropWhile_jsonWs, heq5, rtc_cons_ne _ _ (by decide)]
                    exact ⟨.obj (pyDictInsert acc2 k2 w1), by
                      rw [pml_step_close f3 acc2 _ (remove_trailing_commas r1) k2
                        (remove_trailing_commas r2) (remove_trailing_commas r3) w1
                        (remove_trailing_commas r4) (remove_trailing_commas r5)
                        (by rw [hdwl, hrtck]) hk2 hdw3
                        (by rw [hdwr3]; exact hw1) hdw5]⟩
                  next => simp at h
              next => simp at h
          next => simp at h

/-- Claim C6, amended: for every JSON-like text that is valid JSON
except for one trailing comma before a closing brace — formalised as
acceptance by the JSON grammar extended with exactly one trailing
object comma (`jsonLoadsTc` with count 1) — the tolerant parser
succeeds.  If the direct tiers do not already accept, the extracted
candidate is the trimmed text itself and `remove_trailing_commas`
turns it into a text strict `json.loads` accepts: the repair deletes
the structural trailing comma, and elsewhere only comma-before-closer
sequences inside quoted strings, which keeps the text well formed.
The spec's parenthetical that string content is preserved is refuted
by the counterexample. -/
theorem trailing_comma_class_parser_succeeds (t : Chars) (v : Json)
    (h : jsonLoadsTc t = some (v, 1)) :
    ∃ u, tolerant_parse_json_from_text t = .ok u := by
  have hm : parseValueTc ((jsonTrim t).length * 4 + 16) (jsonTrim t) = some (v, 1, []) := by
    simp only [jsonLoadsTc] at h
    cases hp : parseValueTc ((jsonTrim t).length * 4 + 16) (jsonTrim t) with
    | none => rw [hp] at h; simp at h
    | some pr =>
        obtain ⟨v', pr2⟩ := pr
        obtain ⟨n', r'⟩ := pr2
        rw [hp] at h
        cases r' with
        | nil =>
            simp only [Option.some.injEq, Prod.mk.injEq] at h
            obtain ⟨rfl, rfl⟩ := h
            rfl
        | cons a b => simp at h
  obtain ⟨F3, hF3⟩ : ∃ k, (jsonTrim t).length * 4 + 16 = k + 1 :=
    ⟨(jsonTrim t).length * 4 + 15, by omega⟩
  rcases parseValueTc_pos_head hm (by decide) with ⟨t0, hhead⟩ | ⟨t0, hhead⟩
  · -- top-level object
    have hm2 := hm
    rw [hF3, hhead, parseValueTc, if_pos rfl] at hm2
    obtain ⟨p, hp⟩ := (parseTc_last_char F3).2.2.2.1 t0 v 1 [] hm2
    have hmlast : jsonTrim t = ('{' :: p) ++ ['}'] := by
      rw [hhead, hp]
      rfl
    cases h1 : pyJsonLoads (clean_markdown_json t) with
    | some u => exact ⟨u, by simp only [tolerant_parse_json_from_text, h1]⟩
    | none =>
    cases h2 : pyJsonLoads t with
    | some u => exact ⟨u, by simp only [tolerant_parse_json_from_text, h1, h2]⟩
    | none =>
    obtain ⟨w1, w2, hdec, hw1, hw2⟩ := jsonTrim_decomp t
    have hw1p := all_pyWsChar_of_jsonWsChar hw1
    have hw2p := all_pyWsChar_of_jsonWsChar hw2
    have hA : pyStrip t = jsonTrim t := by
      unfold pyStrip
      conv_lhs => rw [hdec]
      rw [List.append_assoc, all_append_dropWhile pyWsChar w1 _ hw1p,
        hhead, List.cons_append, dropWhile_cons_neg _ _ _ (by decide),
        ← List.cons_append, ← hhead,
        dropTrailing_append_all pyWsChar _ _ hw2p,
        hmlast, dropTrailing_concat_neg _ _ _ (by decide), ← hmlast]
    have hB : subFenceOpen (jsonTrim t) = jsonTrim t :=
      subFenceOpen_id hhead (by decide)
    have hC : pyStrip (jsonTrim t) = jsonTrim t :=
      pyStrip_eq_self hhead hmlast (by decide) (by decide)
    have hD : subFenceClose (jsonTrim t) = jsonTrim t :=
      subFenceClose_id hmlast (by decide)
    have hclean : clean_markdown_json t = jsonTrim t := by
      unfold clean_markdown_json
      rw [hA, hB, hC, hD, hC]
    have hscan : scanCandidate (jsonTrim t) = some (jsonTrim t) := by
      rw [hhead]
      exact scanCandidate_obj t0 p hp
    have hcand : extract_first_json_candidate t = some (jsonTrim t) := by
      unfold extract_first_json_candidate
      rw [hclean, hscan]
      simp [hC]
    cases h4 : pyJsonLoads (jsonTrim t) with
    | some u => exact ⟨u, by simp only [tolerant_parse_json_from_text, h1, h2, hcand, h4]⟩
    | none =>
    obtain ⟨u, hu⟩ := ((simTc ((jsonTrim t).length * 4 + 16)
      ((jsonTrim t).length * 4 + 16) le_rfl).1 (jsonTrim t) v 1 [] hm
      ((remove_trailing_commas (jsonTrim t)).length * 4 + 16) (by omega))
    rw [rtc_nil] at hu
    obtain ⟨c0, t1, hcons0, hws0⟩ := parseValue_head_not_ws _ _ _ _ hu
    obtain ⟨p0, ch0, hlast0, hch0⟩ := (parse_last_char _).1 _ _ _ hu
    have hjt : jsonTrim (remove_trailing_commas (jsonTrim t)) =
        remove_trailing_commas (jsonTrim t) := by
      unfold jsonTrim
      exact strip_eq_self jsonWsChar hcons0 hlast0
        (jsonWsChar_eq_false_of_pyWsChar hws0) (jsonWsChar_eq_false_of_pyWsChar hch0)
    have hb : pyJsonLoads (remove_trailing_commas (jsonTrim t)) = some u := by
      simp only [pyJsonLoads, hjt, hu]
    exact ⟨u, by simp only [tolerant_parse_json_from_text, h1, h2, hcand, h4, hb]⟩
  · -- top-level array
    have hm2 := hm
    rw [hF3, hhead, parseValueTc, if_neg (by decide), if_pos rfl] at hm2
    obtain ⟨p, hp⟩ := (parseTc_last_char F3).2.1 t0 v 1 [] hm2
    have hmlast : jsonTrim t = ('[' :: p) ++ [']'] := by
      rw [hhead, hp]
      rfl
    cases h1 : pyJsonLoads (clean_markdown_json t) with
    | some u => exact ⟨u, by simp only [tolerant_parse_json_from_text, h1]⟩
    | none =>
    cases h2 : pyJsonLoads t with
    | some u => exact ⟨u, by simp only [tolerant_parse_json_from_text, h1, h2]⟩
    | none =>
    obtain ⟨w1, w2, hdec, hw1, hw2⟩ := jsonTrim_decomp t
    have hw1p := all_pyWsChar_of_jsonWsChar hw1
    have hw2p := all_pyWsChar_of_jsonWsChar hw2
    have hA : pyStrip t = jsonTrim t := by
      unfold pyStrip
      conv_lhs => rw [hdec]
      rw [List.append_assoc, all_append_dropWhile pyWsChar w1 _ hw1p,
        hhead, List.cons_append, dropWhile_cons_neg _ _ _ (by decide),
        ← List.cons_append, ← hhead,
        dropTrailing_append_all pyWsChar _ _ hw2p,
        hmlast, dropTrailing_concat_neg _ _ _ (by decide), ← hmlast]
    have hB : subFenceOpen (jsonTrim t) = jsonTrim t :=
      subFenceOpen_id hhead (by decide)
    have hC : pyStrip (jsonTrim t) = jsonTrim t :=
      pyStrip_eq_self hhead hmlast (by decide) (by decide)
    have hD : subFenceClose (jsonTrim t) = jsonTrim t :=
      subFenceClose_id hmlast (by decide)
    have hclean : clean_markdown_json t = jsonTrim t := by
      unfold clean_markdown_json
      rw [hA, hB, hC, hD, hC]
    have hscan : scanCandidate (jsonTrim t) = some (jsonTrim t) := by
      rw [hhead]
      exact scanCandidate_arr t0 p hp
    have hcand : extract_first_json_candidate t = some (jsonTrim t) := by
      unfold extract_first_json_candidate
      rw [hclean, hscan]
      simp [hC]
    cases h4 : pyJsonLoads (jsonTrim t) with
    | some u => exact ⟨u, by simp only [tolerant_parse_json_from_text, h1, h2, hcand, h4]⟩
    | none =>
    obtain ⟨u, hu⟩ := ((simTc ((jsonTrim t).length * 4 + 16)
      ((jsonTrim t).length * 4 + 16) le_rfl).1 (jsonTrim t) v 1 [] hm
      ((remove_trailing_commas (jsonTrim t)).length * 4 + 16) (by omega))
    rw [rtc_nil] at hu
    obtain ⟨c0, t1, hcons0, hws0⟩ := parseValue_head_not_ws _ _ _ _ hu
    obtain ⟨p0, ch0, hlast0, hch0⟩ := (parse_last_char _).1 _ _ _ hu
    have hjt : jsonTrim (remove_trailing_commas (jsonTrim t)) =
        remove_trailing_commas (jsonTrim t) := by
      unfold jsonTrim
      exact strip_eq_self jsonWsChar hcons0 hlast0
        (jsonWsChar_eq_false_of_pyWsChar hws0) (jsonWsChar_eq_false_of_pyWsChar hch0)
    have hb : pyJsonLoads (remove_trailing_commas (jsonTrim t)) = some u := by
      simp only [pyJsonLoads, hjt, hu]
    exact ⟨u, by simp only [tolerant_parse_json_from_text, h1, h2, hcand, h4, hb]⟩

/-- Witness for `trailing_comma_class_parser_succeeds` at the class
member `{"a": 1,}` (accepted with exactly one trailing comma). -/
theorem trailing_comma_class_parser_succeeds_witness :
    jsonLoadsTc "\x7b\"a\": 1,\x7d".data = some (.obj [(['a'], .jint 1)], 1) ∧
    ∃ u, tolerant_parse_json_from_text "\x7b\"a\": 1,\x7d".data = .ok u :=
  ⟨rfl, trailing_comma_class_parser_succeeds "\x7b\"a\": 1,\x7d".data
    (.obj [(['a'], .jint 1)]) rfl⟩

end Facture
